import Mathlib

/-!
# Csparse_reader: a compressed-sparse-column accessor

A shallow embedding of `src/src/Csparse_reader.h` (the class template
`beachmat::Csparse_reader<T, V>`) and theorems about it.

Conventions of the embedding.

* `Rcpp::IntegerVector` (`i`, `p`) is `List Int`; the value vector `V` is `List α`.
  Sizes and the `size_t` arguments (`r`, `c`, `first`, `last`, `nrow`, `ncol`,
  `currow`, `curstart`, `curend`) are `Nat`; `int` values (elements of `i` and
  `p`, the cursor entries of `indices`, iterator offsets) are `Int`.
* An iterator `v.begin() + k` is represented by its offset `k : Int`.
* `v[k]` is unchecked in the source.  The embedding reads with `rdAt`, `rdInt`
  and `rdVal`, which give a default value at an offset outside the vector.
* Comparisons of an `int` element with a `size_t` row (`i[k] < r`, `*loc == r`)
  convert the `int` to `size_t`.  On a constructed store every element of `i`
  is in `[0, nrow)`, so the conversion keeps the value and the comparison is
  the comparison of the integers, which is what the embedding uses.
* The two conversions whose operand is not an element of `i` are explicit:
  `int(first)` in `get_col` is `int_of_size` (32-bit wrap), and the `size_t`
  returned by `get_const_col_nonzero` from an iterator difference is `size_of_diff`.
-/

namespace Beachmat

/-! ## Data model -/

/-- The decoded slots of the incoming object: `Dim` (as `nrow`, `ncol`), `i`, `p`, `x`,
together with the storage type tag of the `x` slot (`temp_x.sexp_type()`).
The slots `i` and `p` are integer vectors by type, which is what the two
`INTSXP` tests of the constructor establish before `i=temp_i` and `p=temp_p`. -/
structure Incoming (α : Type) where
  nrow : Nat
  ncol : Nat
  i : List Int
  p : List Int
  x : List α
  xtype : Nat
  deriving DecidableEq

/-- The members `currow`, `curstart`, `curend` and `indices` of the reader. -/
structure Cursor where
  currow : Nat
  curstart : Nat
  curend : Nat
  indices : List Int
  deriving DecidableEq, Repr

/-- The reader object: dimensions, the three arrays, the value of `get_empty()` for the
realization, and the row cursor. -/
structure Reader (α : Type) where
  nrow : Nat
  ncol : Nat
  i : List Int
  p : List Int
  x : List α
  empty : α
  cur : Cursor
  deriving DecidableEq

/-- The throw sites of the constructor body, in source order. -/
inductive CtorError where
  | xType
  | xiLength
  | pLength
  | pFirst
  | pLast
  | pNegative
  | pUnsorted
  | iUnsorted
  | iRange
  deriving DecidableEq, Repr

/-- The error kinds named by the specification. -/
inductive ErrorKind where
  | TypeMismatch
  | LengthMismatch
  | MalformedPointer
  | UnsortedRows
  | RowOutOfRange
  | IndexOutOfBounds
  deriving DecidableEq, Repr

/-- The kind of each throw site: the type test of `x`, the two length tests, the three
tests on `p` (first element, last element, scan), the column scan of `i`, the range scan. -/
def CtorError.kind : CtorError → ErrorKind
  | .xType => .TypeMismatch
  | .xiLength => .LengthMismatch
  | .pLength => .LengthMismatch
  | .pFirst => .MalformedPointer
  | .pLast => .MalformedPointer
  | .pNegative => .MalformedPointer
  | .pUnsorted => .MalformedPointer
  | .iUnsorted => .UnsortedRows
  | .iRange => .RowOutOfRange

/-! ## Unchecked reads -/

/-- Read `v[k]` of an integer vector at a `size_t` index. -/
def rdAt (v : List Int) (k : Nat) : Int := v.getD k 0

/-- Read `v[k]` of an integer vector at an `int` offset. -/
def rdInt (v : List Int) (k : Int) : Int := v.getD k.toNat 0

/-- Read `x[k]` of the value vector at an `int` offset. -/
def rdVal {α : Type} (x : List α) (d : α) (k : Int) : α := x.getD k.toNat d

/-! ## Integer conversions -/

/-- The conversion `int(n)` of a `size_t` to a 32-bit `int`: the value modulo `2^32`,
taken in `[-2^31, 2^31)`. -/
def int_of_size (n : Nat) : Int :=
  if (n : Int) % 2 ^ 32 < 2 ^ 31 then (n : Int) % 2 ^ 32 else (n : Int) % 2 ^ 32 - 2 ^ 32

/-- The conversion of an iterator difference (`ptrdiff_t`) to `size_t`: a negative
difference wraps around `2^64`. -/
def size_of_diff (d : Int) : Nat :=
  (if d < 0 then d + 2 ^ 64 else d).toNat

/-! ## `std::lower_bound` -/

/-- The loop of `std::lower_bound` on the offsets of an integer vector: `first` is the
current left iterator, `len` the remaining distance.  Each round halves `len`
(`half = len >> 1`, `middle = first + half`); when `*middle < val` the search moves to
`middle + 1` with `len - half - 1` left, otherwise it keeps `first` with `half` left.
The first argument bounds the number of rounds; `len` rounds always suffice. -/
def lower_bound_loop (v : List Int) (val : Int) : Nat → Int → Nat → Int
  | 0, first, _ => first
  | fuel + 1, first, len =>
    if 0 < len then
      let half := len / 2
      let middle := first + (half : Int)
      if rdInt v middle < val then
        lower_bound_loop v val fuel (middle + 1) (len - half - 1)
      else
        lower_bound_loop v val fuel first half
    else first

/-- The call `std::lower_bound(v.begin() + first, v.begin() + last, val)`, as the offset
of the returned iterator. -/
def lower_bound (v : List Int) (first last : Int) (val : Int) : Int :=
  lower_bound_loop v val (last - first).toNat first (last - first).toNat

/-! ## Loops -/

/-- The loop `for (size_t c = first; c < last; ++c) body`, threading the state the body
updates. -/
def forRange {σ : Type} (first last : Nat) (body : Nat → σ → σ) (init : σ) : σ :=
  (List.range' first (last - first)).foldl (fun st c => body c st) init

/-- Store through an iterator `out + k` with an `int` offset `k`: the buffer element at
offset `k` is replaced; an offset outside the buffer leaves the buffer as it is. -/
def wrAt {α : Type} (out : List α) (k : Int) (v : α) : List α :=
  if 0 ≤ k then out.set k.toNat v else out

/-! ## Constructor -/

/-- The first scan of `p` (source lines 73-78): for `px = 0 .. NC-1`, `p[px] < 0` throws
"non-negative values" and `p[px] > p[px+1]` throws "sorted".  The result is the error
thrown, or `none` when the loop completes.  The second argument counts the rounds left. -/
def check_p_loop (p : List Int) : Nat → Nat → Option CtorError
  | _, 0 => none
  | px, n + 1 =>
    let current := rdAt p px
    if current < 0 then some .pNegative
    else if current > rdAt p (px + 1) then some .pUnsorted
    else check_p_loop p (px + 1) n

/-- The inner loop of the second scan (source lines 86-91):
`for (int ix = left; ix < right; ++ix)`, throwing when `i[ix] > i[ix+1]`.
The first argument counts the rounds left, `right - ix`. -/
def check_i_run (i : List Int) : Nat → Int → Option CtorError
  | 0, _ => none
  | n + 1, ix =>
    if rdInt i ix > rdInt i (ix + 1) then some .iUnsorted
    else check_i_run i n (ix + 1)

/-- The second scan (source lines 80-92): for each column `px`, `left = p[px]`,
`right = p[px+1] - 1`, and the inner loop over `ix` in `[left, right)`. -/
def check_i_loop (i p : List Int) : Nat → Nat → Option CtorError
  | _, 0 => none
  | px, n + 1 =>
    let left := rdAt p px
    let right := rdAt p (px + 1) - 1
    match check_i_run i (right - left).toNat left with
    | some e => some e
    | none => check_i_loop i p (px + 1) n

/-- The third scan (source lines 94-99): every element `curi` of `i` with
`curi < 0 || curi >= NR` throws. -/
def check_i_range (nrow : Nat) : List Int → Option CtorError
  | [] => none
  | curi :: rest =>
    if curi < 0 ∨ curi ≥ (nrow : Int) then some .iRange else check_i_range nrow rest

/-- The constructor `Csparse_reader(incoming)`.  `sexp` is `x.sexp_type()` of the
realization and `empty` its `get_empty()`.  `ncol0` is the value of `this->ncol` when the
member initialiser `curend(this->ncol)` runs, which is before `fill_dims` is called in the
body; it is what the base class `dim_checker` (not in this file) leaves there.
The result is the constructed reader or the error thrown. -/
def Csparse_reader {α : Type} (sexp : Nat) (empty : α) (ncol0 : Nat) (incoming : Incoming α) :
    Except CtorError (Reader α) :=
  let NC := incoming.ncol
  let NR := incoming.nrow
  let i := incoming.i
  let p := incoming.p
  let x := incoming.x
  if incoming.xtype ≠ sexp then .error .xType
  else if x.length ≠ i.length then .error .xiLength
  else if NC + 1 ≠ p.length then .error .pLength
  else if rdAt p 0 ≠ 0 then .error .pFirst
  else if rdAt p NC ≠ (x.length : Int) then .error .pLast
  else match check_p_loop p 0 NC with
    | some e => .error e
    | none =>
      match check_i_loop i p 0 NC with
      | some e => .error e
      | none =>
        match check_i_range NR i with
        | some e => .error e
        | none =>
          .ok { nrow := NR, ncol := NC, i := i, p := p, x := x, empty := empty,
                cur := { currow := 0, curstart := 0, curend := ncol0, indices := [] } }

/-! ## Argument checks of `dim_checker` -/

/-- Modelled from the spec: `dim_checker::check_oneargs` is declared in `dim_checker.h`,
which is not in this file.  Specification 4.2: `0 <= row < nrow`, `0 <= col < ncol`,
out of range gives `IndexOutOfBounds`. -/
def check_oneargs {α : Type} (s : Reader α) (r c : Nat) : Bool :=
  decide (r < s.nrow) && decide (c < s.ncol)

/-- Modelled from the spec: `dim_checker::check_rowargs` is declared in `dim_checker.h`,
which is not in this file.  Specification 4.3: `colFirst <= colLast <= ncol`,
`0 <= row < nrow`. -/
def check_rowargs {α : Type} (s : Reader α) (r first last : Nat) : Bool :=
  decide (r < s.nrow) && decide (first ≤ last) && decide (last ≤ s.ncol)

/-- Modelled from the spec: `dim_checker::check_colargs` is declared in `dim_checker.h`,
which is not in this file.  Specification 4.4: `0 <= rowFirst <= rowLast <= nrow` and
`0 <= col < ncol`. -/
def check_colargs {α : Type} (s : Reader α) (c first last : Nat) : Bool :=
  decide (c < s.ncol) && decide (first ≤ last) && decide (last ≤ s.nrow)

/-! ## Getters -/

/-- The body of `get(r, c)` after `check_oneargs` (source lines 112-118). -/
def get_body {α : Type} (s : Reader α) (r c : Nat) : α :=
  let iend := rdAt s.p (c + 1)
  let loc := lower_bound s.i (rdAt s.p c) iend r
  if loc ≠ iend ∧ rdInt s.i loc = (r : Int) then rdVal s.x s.empty loc else s.empty

/-- The method `get(r, c)`; `none` when `check_oneargs` throws. -/
def get {α : Type} (s : Reader α) (r c : Nat) : Option α :=
  if check_oneargs s r c then some (get_body s r c) else none

/-- A loop round `int& curdex = indices[c]; ...` that updates `curdex` in place: the
entry `indices[c]` is replaced by the value the round leaves in `curdex`. -/
def with_curdex (f : Nat → Int → Int) (c : Nat) (indices : List Int) : List Int :=
  indices.set c (f c (indices.getD c 0))

/-- The forward step of `update_indices` at column `c` (source lines 156-159), as the
value left in `curdex`. -/
def step_forward {α : Type} (s : Reader α) (r : Nat) (c : Nat) (curdex : Int) : Int :=
  if curdex ≠ rdAt s.p (c + 1) ∧ rdInt s.i curdex < (r : Int) then curdex + 1 else curdex

/-- The backward step of `update_indices` at column `c` (source lines 163-166), as the
value left in `curdex`. -/
def step_backward {α : Type} (s : Reader α) (r : Nat) (c : Nat) (curdex : Int) : Int :=
  if curdex ≠ rdAt s.p c ∧ rdInt s.i (curdex - 1) ≥ (r : Int) then curdex - 1 else curdex

/-- The forward jump of `update_indices` at column `c` (source lines 174-176), as the
value left in `curdex`. -/
def jump_forward {α : Type} (s : Reader α) (r : Nat) (c : Nat) (curdex : Int) : Int :=
  lower_bound s.i curdex (rdAt s.p (c + 1)) r

/-- The backward jump of `update_indices` at column `c` (source lines 180-182), as the
value left in `curdex`. -/
def jump_backward {α : Type} (s : Reader α) (r : Nat) (c : Nat) (curdex : Int) : Int :=
  lower_bound s.i (rdAt s.p c) curdex r

/-- The method `update_indices(r, first, last)`, as the cursor it leaves. -/
def update_indices {α : Type} (s : Reader α) (r first last : Nat) : Cursor :=
  let indices0 :=
    if s.cur.indices.length ≠ s.ncol then s.p.take s.ncol else s.cur.indices
  let st : Cursor :=
    if first ≠ s.cur.curstart ∨ last ≠ s.cur.curend then
      { curstart := first, curend := last,
        indices := forRange first last (fun px ind => ind.set px (rdAt s.p px)) indices0,
        currow := 0 }
    else { s.cur with indices := indices0 }
  if r = st.currow then st
  else
    let indices :=
      if r = st.currow + 1 then
        forRange first last (with_curdex (step_forward s r)) st.indices
      else if r + 1 = st.currow then
        forRange first last (with_curdex (step_backward s r)) st.indices
      else if r > st.currow then
        forRange first last (with_curdex (jump_forward s r)) st.indices
      else
        forRange first last (with_curdex (jump_backward s r)) st.indices
    { st with indices := indices, currow := r }

/-- The loop body of `get_row` at column `c` (source lines 200-201); `out` is the buffer
from the iterator the caller passed, so the store goes to offset `c - first`. -/
def get_row_body {α : Type} (s : Reader α) (cur : Cursor) (r first : Nat) (c : Nat)
    (out : List α) : List α :=
  let idex := cur.indices.getD c 0
  if idex ≠ rdAt s.p (c + 1) ∧ rdInt s.i idex = (r : Int) then
    out.set (c - first) (rdVal s.x s.empty idex)
  else out

/-- The method `get_row(r, out, first, last)`: the `last - first` elements written at
`out`, and the reader with the cursor left by `update_indices`; `none` when
`check_rowargs` throws. -/
def get_row {α : Type} (s : Reader α) (r first last : Nat) : Option (List α × Reader α) :=
  if check_rowargs s r first last then
    let cur := update_indices s r first last
    let out := List.replicate (last - first) s.empty
    some (forRange first last (get_row_body s cur r first) out, { s with cur := cur })
  else none

/-- The column sub-run selected by `get_col` and `get_const_col_nonzero`
(source lines 210-222 and 234-246): the offsets `(iIt, eIt, xIt)` after the two
conditional searches. -/
def col_run {α : Type} (s : Reader α) (c first last : Nat) : Int × Int × Int :=
  let pstart := rdAt s.p c
  let iIt := pstart
  let eIt := rdAt s.p (c + 1)
  let xIt := pstart
  let (iIt, xIt) :=
    if first ≠ 0 then
      let new_iIt := lower_bound s.i iIt eIt first
      (new_iIt, xIt + (new_iIt - iIt))
    else (iIt, xIt)
  let eIt := if last ≠ s.nrow then lower_bound s.i iIt eIt last else eIt
  (iIt, eIt, xIt)

/-- The scatter loop of `get_col` (source lines 225-227):
`for (; iIt != eIt; ++iIt, ++xIt) *(out + (*iIt - int(first))) = *xIt`.
The first argument bounds the number of rounds; `none` when the bound is used up
before `iIt` reaches `eIt`. -/
def get_col_loop {α : Type} (s : Reader α) (first : Nat) (eIt : Int) :
    Nat → Int → Int → List α → Option (List α)
  | fuel, iIt, xIt, out =>
    if iIt = eIt then some out
    else match fuel with
      | 0 => none
      | fuel + 1 =>
        get_col_loop s first eIt fuel (iIt + 1) (xIt + 1)
          (wrAt out (rdInt s.i iIt - int_of_size first) (rdVal s.x s.empty xIt))

/-- The method `get_col(c, out, first, last)`: the `last - first` elements written at
`out`; `none` when `check_colargs` throws (or when the scatter loop does not reach `eIt`
within `eIt - iIt` rounds, which is when it would not stop). -/
def get_col {α : Type} (s : Reader α) (c first last : Nat) : Option (List α) :=
  if check_colargs s c first last then
    let (iIt, eIt, xIt) := col_run s c first last
    get_col_loop s first eIt (eIt - iIt).toNat iIt xIt (List.replicate (last - first) s.empty)
  else none

/-- The method `get_const_col_nonzero(c, index, val, first, last)`: the returned count
(`endex - index` converted to `size_t`) and the offsets left in `index` and `val`;
`none` when `check_colargs` throws. -/
def get_const_col_nonzero {α : Type} (s : Reader α) (c first last : Nat) :
    Option (Nat × Int × Int) :=
  if check_colargs s c first last then
    let (index, endex, val) := col_run s c first last
    some (size_of_diff (endex - index), index, val)
  else none

/-! ## Data-model invariants -/

/-- The data-model invariants of a store: `p` has `ncol + 1` entries and `x` as many as
`i` (`nnz`); `p[0] = 0`, `p[ncol] = nnz`, `p` is non-decreasing; inside each column run
the row indices are strictly increasing; every row index is in `[0, nrow)`. -/
def WellFormed {α : Type} (s : Reader α) : Prop :=
  s.p.length = s.ncol + 1 ∧
  s.x.length = s.i.length ∧
  rdAt s.p 0 = 0 ∧
  rdAt s.p s.ncol = (s.i.length : Int) ∧
  (∀ c, c < s.ncol → rdAt s.p c ≤ rdAt s.p (c + 1)) ∧
  (∀ c, c < s.ncol → ∀ k, k < s.i.length →
    rdAt s.p c ≤ (k : Int) → (k : Int) + 1 < rdAt s.p (c + 1) → rdAt s.i k < rdAt s.i (k + 1)) ∧
  (∀ k, k < s.i.length → 0 ≤ rdAt s.i k ∧ rdAt s.i k < (s.nrow : Int))

instance {α : Type} (s : Reader α) : Decidable (WellFormed s) := by
  unfold WellFormed; infer_instance

/-- The offset `m` splits `[a, b)` of `v` at `val`: every element before `m` is below
`val` and every element from `m` on is not. -/
def IsLB (v : List Int) (a b : Int) (val : Int) (m : Int) : Prop :=
  a ≤ m ∧ m ≤ b ∧ (∀ j, a ≤ j → j < m → rdInt v j < val) ∧
    (∀ j, m ≤ j → j < b → val ≤ rdInt v j)

/-- The offset `k` is the cursor position of column `c` for row `r`: the offset of the
first entry of the run of `c` whose row is at least `r`, or the end of the run. -/
def IsCursor {α : Type} (s : Reader α) (c r : Nat) (k : Int) : Prop :=
  IsLB s.i (rdAt s.p c) (rdAt s.p (c + 1)) (r : Int) k


/-! ## The structural conditions of the specification -/

/-- The structural conditions of section 4.1 of the specification on a constructor input:
the element type of `x` is the expected one, `len(i) = len(x)`, `len(p) = ncol + 1`,
`p[0] = 0`, `p[ncol] = len(x)`, `0 <= p[c] <= p[c+1]` for every column, the row indices
strictly increasing inside each column run, and every row index in `[0, nrow)`. -/
def Incoming.Valid {α : Type} (sexp : Nat) (inc : Incoming α) : Prop :=
  inc.xtype = sexp ∧
  inc.i.length = inc.x.length ∧
  inc.p.length = inc.ncol + 1 ∧
  rdAt inc.p 0 = 0 ∧
  rdAt inc.p inc.ncol = (inc.x.length : Int) ∧
  (∀ c, c < inc.ncol → 0 ≤ rdAt inc.p c ∧ rdAt inc.p c ≤ rdAt inc.p (c + 1)) ∧
  (∀ c, c < inc.ncol → ∀ k, k < inc.i.length →
    rdAt inc.p c ≤ (k : Int) → (k : Int) + 1 < rdAt inc.p (c + 1) →
      rdAt inc.i k < rdAt inc.i (k + 1)) ∧
  (∀ k, k < inc.i.length → 0 ≤ rdAt inc.i k ∧ rdAt inc.i k < (inc.nrow : Int))

instance {α : Type} (sexp : Nat) (inc : Incoming α) : Decidable (inc.Valid sexp) := by
  unfold Incoming.Valid; infer_instance

/-- The validation of section 4.1 as the specification words it: the conditions 1 to 8
are tried in that order and the kind of the first one that fails is the result; `none`
when all hold. -/
def spec_validate {α : Type} (sexp : Nat) (inc : Incoming α) : Option ErrorKind :=
  if inc.xtype ≠ sexp then some .TypeMismatch
  else if inc.i.length ≠ inc.x.length then some .LengthMismatch
  else if inc.p.length ≠ inc.ncol + 1 then some .LengthMismatch
  else if rdAt inc.p 0 ≠ 0 then some .MalformedPointer
  else if rdAt inc.p inc.ncol ≠ (inc.x.length : Int) then some .MalformedPointer
  else if ¬ (∀ c, c < inc.ncol → 0 ≤ rdAt inc.p c ∧ rdAt inc.p c ≤ rdAt inc.p (c + 1)) then
    some .MalformedPointer
  else if ¬ (∀ c, c < inc.ncol → ∀ k, k < inc.i.length →
      rdAt inc.p c ≤ (k : Int) → (k : Int) + 1 < rdAt inc.p (c + 1) →
        rdAt inc.i k < rdAt inc.i (k + 1)) then
    some .UnsortedRows
  else if ¬ (∀ k, k < inc.i.length → 0 ≤ rdAt inc.i k ∧ rdAt inc.i k < (inc.nrow : Int)) then
    some .RowOutOfRange
  else none

/-- The error kind the constructor reports: `none` when it constructs the reader. -/
def ctor_kind {α : Type} (sexp : Nat) (empty : α) (ncol0 : Nat) (inc : Incoming α) :
    Option ErrorKind :=
  match Csparse_reader sexp empty ncol0 inc with
  | .ok _ => none
  | .error e => some e.kind

/-- The reader the constructor leaves when no check throws. -/
def Incoming.reader {α : Type} (inc : Incoming α) (empty : α) (ncol0 : Nat) : Reader α :=
  { nrow := inc.nrow, ncol := inc.ncol, i := inc.i, p := inc.p, x := inc.x, empty := empty,
    cur := { currow := 0, curstart := 0, curend := ncol0, indices := [] } }

/-! ## The cursor invariant -/

/-- The cursor is consistent with the store: once `indices` is materialized (its size is
`ncol`), the entry of every column of the window `[curstart, curend)` is the cursor
position of that column for `currow`; before that, `currow` is 0. -/
def CursorOk {α : Type} (s : Reader α) (cur : Cursor) : Prop :=
  (cur.indices.length = s.ncol → ∀ c, cur.curstart ≤ c → c < cur.curend → c < s.ncol →
    IsCursor s c cur.currow (cur.indices.getD c 0)) ∧
  (cur.indices.length ≠ s.ncol → cur.currow = 0)

/-! ## Sequences of row requests -/

/-- A sequence of calls `get_row(r, out, first, last)` on one reader, each call given as
`(r, first, last)` and made on the reader the previous call left: the buffers written, in
call order; `none` when a call throws. -/
def run_get_row {α : Type} (s : Reader α) : List (Nat × Nat × Nat) → Option (List (List α))
  | [] => some []
  | (r, first, last) :: rest =>
    match get_row s r first last with
    | none => none
    | some (out, s') => (run_get_row s' rest).map (fun outs => out :: outs)

/-! ## Scattering a run -/

/-- The scatter the specification describes for a run of `n` entries starting at offset
`start`: over a buffer of `len` empty values, the value `x[k]` of each entry goes to
position `i[k] - first`. -/
def scatter {α : Type} (s : Reader α) (first : Nat) (start : Int) (n len : Nat) : List α :=
  (List.range n).foldl
    (fun (out : List α) (j : Nat) => wrAt out (rdInt s.i (start + (j : Int)) - (first : Int))
      (rdVal s.x s.empty (start + (j : Int))))
    (List.replicate len s.empty)

/-! ## Bounds-checked constructor -/

/-- Read `v[k]` at a `size_t` index with the bound of the vector checked: `none` when `k`
is not an index of `v`. -/
def rdAtChk (v : List Int) (k : Nat) : Option Int := v[k]?

/-- Read `v[k]` at an `int` offset with the bounds of the vector checked: `none` when `k`
is negative or not below the length of `v`. -/
def rdIntChk (v : List Int) (k : Int) : Option Int :=
  if 0 ≤ k then v[k.toNat]? else none

/-- The first scan of `p` (source lines 73-78) with every read of `p` checked: `p[px]` is
read first and `p[px+1]` only when `p[px] < 0` did not throw.  The result is `none` when a
read is out of bounds, otherwise what the scan does. -/
def check_p_loop_chk (p : List Int) : Nat → Nat → Option (Option CtorError)
  | _, 0 => some none
  | px, n + 1 =>
    match rdAtChk p px with
    | none => none
    | some current =>
      if current < 0 then some (some .pNegative)
      else match rdAtChk p (px + 1) with
        | none => none
        | some next =>
          if current > next then some (some .pUnsorted)
          else check_p_loop_chk p (px + 1) n

/-- The inner loop of the second scan (source lines 86-91) with the reads `i[ix]` and
`i[ix+1]` checked. -/
def check_i_run_chk (i : List Int) : Nat → Int → Option (Option CtorError)
  | 0, _ => some none
  | n + 1, ix =>
    match rdIntChk i ix with
    | none => none
    | some current =>
      match rdIntChk i (ix + 1) with
      | none => none
      | some next =>
        if current > next then some (some .iUnsorted)
        else check_i_run_chk i n (ix + 1)

/-- The second scan (source lines 80-92) with the reads of `p` and of `i` checked. -/
def check_i_loop_chk (i p : List Int) : Nat → Nat → Option (Option CtorError)
  | _, 0 => some none
  | px, n + 1 =>
    match rdAtChk p px with
    | none => none
    | some left =>
      match rdAtChk p (px + 1) with
      | none => none
      | some pnext =>
        let right := pnext - 1
        match check_i_run_chk i (right - left).toNat left with
        | none => none
        | some (some e) => some (some e)
        | some none => check_i_loop_chk i p (px + 1) n

/-- The constructor with every indexed read of `p` and `i` checked, in the order of the
source: the two length tests, then `p[0]`, then `p[NC]`, then the two scans; the third
scan walks `i` from `begin()` to `end()` and indexes nothing.  The result is `none` when
some read is out of bounds, otherwise what the constructor does. -/
def Csparse_reader_chk {α : Type} (sexp : Nat) (empty : α) (ncol0 : Nat)
    (incoming : Incoming α) : Option (Except CtorError (Reader α)) :=
  let NC := incoming.ncol
  let NR := incoming.nrow
  let i := incoming.i
  let p := incoming.p
  let x := incoming.x
  if incoming.xtype ≠ sexp then some (.error .xType)
  else if x.length ≠ i.length then some (.error .xiLength)
  else if NC + 1 ≠ p.length then some (.error .pLength)
  else match rdAtChk p 0 with
    | none => none
    | some p0 =>
      if p0 ≠ 0 then some (.error .pFirst)
      else match rdAtChk p NC with
        | none => none
        | some pNC =>
          if pNC ≠ (x.length : Int) then some (.error .pLast)
          else match check_p_loop_chk p 0 NC with
            | none => none
            | some (some e) => some (.error e)
            | some none =>
              match check_i_loop_chk i p 0 NC with
              | none => none
              | some (some e) => some (.error e)
              | some none =>
                match check_i_range NR i with
                | some e => some (.error e)
                | none =>
                  some (.ok
                    { nrow := NR, ncol := NC, i := i, p := p, x := x, empty := empty,
                      cur := { currow := 0, curstart := 0, curend := ncol0, indices := [] } })

/-! ## Column sub-run by search, and the stores of `get_col` -/

/-- The column sub-run when both searches are always made, as the specification words
`get_col`: the lower bound of `first` in the run of `c`, then the lower bound of `last`
from there, the value iterator moved as far as the index iterator. -/
def col_run_search {α : Type} (s : Reader α) (c first last : Nat) : Int × Int × Int :=
  let pstart := rdAt s.p c
  let eIt := rdAt s.p (c + 1)
  let new_iIt := lower_bound s.i pstart eIt first
  (new_iIt, lower_bound s.i new_iIt eIt last, pstart + (new_iIt - pstart))

/-- The offsets `*iIt - int(first)` at which the scatter loop of `get_col`
(source lines 225-227) stores, in the order of the rounds; the first argument bounds the
number of rounds as in `get_col_loop`. -/
def get_col_offsets {α : Type} (s : Reader α) (first : Nat) (eIt : Int) : Nat → Int → List Int
  | fuel, iIt =>
    if iIt = eIt then []
    else match fuel with
      | 0 => []
      | fuel + 1 =>
        (rdInt s.i iIt - int_of_size first) :: get_col_offsets s first eIt fuel (iIt + 1)

/-- The offsets of `out` at which `get_col(c, out, first, last)` stores a value; none
when `check_colargs` throws. -/
def get_col_writes {α : Type} (s : Reader α) (c first last : Nat) : List Int :=
  if check_colargs s c first last then
    let (iIt, eIt, _) := col_run s c first last
    get_col_offsets s first eIt (eIt - iIt).toNat iIt
  else []

/-! ## States reached by row requests, and the states inside `update_indices` -/

/-- The reader after a sequence of calls `get_row(r, out, first, last)`, each given as
`(r, first, last)` and made on the reader the previous call left; `none` when a call
throws. -/
def after_calls {α : Type} (s : Reader α) : List (Nat × Nat × Nat) → Option (Reader α)
  | [] => some s
  | (r, first, last) :: rest =>
    match get_row s r first last with
    | none => none
    | some (_, s') => after_calls s' rest

/-- The vector `indices` after the first statement of `update_indices`
(source lines 126-128). -/
def materialized {α : Type} (s : Reader α) : List Int :=
  if s.cur.indices.length ≠ s.ncol then s.p.take s.ncol else s.cur.indices

/-- The cursor after the window test of `update_indices` (source lines 126-142), which is
the cursor the row test and the four column loops start from. -/
def window_cursor {α : Type} (s : Reader α) (first last : Nat) : Cursor :=
  if first ≠ s.cur.curstart ∨ last ≠ s.cur.curend then
    { curstart := first, curend := last,
      indices := forRange first last (with_curdex (fun px _ => rdAt s.p px)) (materialized s),
      currow := 0 }
  else { s.cur with indices := materialized s }

/-- The vector `indices` when round `c` of a column loop `for (c = first; ...)` begins,
that is after the rounds `first, ..., c - 1`; `f` is what a round leaves in `curdex`. -/
def indices_at (f : Nat → Int → Int) (first c : Nat) (indices : List Int) : List Int :=
  forRange first c (with_curdex f) indices

/-- The value `int& curdex = indices[c]` is bound to when round `c` of a column loop
begins. -/
def curdex_at (f : Nat → Int → Int) (first c : Nat) (indices : List Int) : Int :=
  (indices_at f first c indices).getD c 0

/-! ## Offsets read by `std::lower_bound` -/

/-- The offsets `middle` at which the loop of `std::lower_bound` reads `*middle`, in the
order of the rounds; the arguments are those of `lower_bound_loop`. -/
def lower_bound_reads (v : List Int) (val : Int) : Nat → Int → Nat → List Int
  | 0, _, _ => []
  | fuel + 1, first, len =>
    if 0 < len then
      let half := len / 2
      let middle := first + (half : Int)
      middle ::
        (if rdInt v middle < val then
          lower_bound_reads v val fuel (middle + 1) (len - half - 1)
        else
          lower_bound_reads v val fuel first half)
    else []

/-- The offsets of `v` read by `std::lower_bound(v.begin() + first, v.begin() + last, val)`. -/
def lower_bound_offsets (v : List Int) (first last : Int) (val : Int) : List Int :=
  lower_bound_reads v val (last - first).toNat first (last - first).toNat

/-! ## The read interface as calls on the object -/

/-- The four read requests of the class. -/
inductive Op where
  | get (r c : Nat)
  | get_row (r first last : Nat)
  | get_col (c first last : Nat)
  | get_const_col_nonzero (c first last : Nat)
  deriving DecidableEq, Repr

/-- What a request hands to its caller: the value of `get`, the buffer written by
`get_row` or `get_col`, the count and the two iterators of `get_const_col_nonzero`, or the
error thrown. -/
inductive Reply (α : Type) where
  | value (v : α)
  | buffer (out : List α)
  | run (n : Nat) (index val : Int)
  | thrown (e : ErrorKind)
  deriving DecidableEq

/-- A request made on the object `s`: the reply and the object after the call; `none`
when the call does not return.  The argument check is the first statement of each method,
so when it throws (`IndexOutOfBounds` in the specification) the object is as it was.  The
bodies of `get`, `get_col` and `get_const_col_nonzero` assign to no member; `get_row`
assigns through `update_indices` only. -/
def call {α : Type} (s : Reader α) : Op → Option (Reply α × Reader α)
  | .get r c =>
    if check_oneargs s r c then some (.value (get_body s r c), s)
    else some (.thrown .IndexOutOfBounds, s)
  | .get_row r first last =>
    if check_rowargs s r first last then
      (get_row s r first last).map (fun q => (.buffer q.1, q.2))
    else some (.thrown .IndexOutOfBounds, s)
  | .get_col c first last =>
    if check_colargs s c first last then
      (get_col s c first last).map (fun out => (.buffer out, s))
    else some (.thrown .IndexOutOfBounds, s)
  | .get_const_col_nonzero c first last =>
    if check_colargs s c first last then
      (get_const_col_nonzero s c first last).map (fun q => (.run q.1 q.2.1 q.2.2, s))
    else some (.thrown .IndexOutOfBounds, s)

/-! # Theorems -/

/-! ## Reads and `lower_bound` -/

theorem rdInt_natCast (v : List Int) (k : Nat) : rdInt v (k : Int) = rdAt v k := by
  simp [rdInt, rdAt]

theorem rdInt_eq_rdAt (v : List Int) (k : Int) : rdInt v k = rdAt v k.toNat := by
  simp [rdInt, rdAt]

theorem lower_bound_loop_eq (v : List Int) (val : Int) :
    ∀ (fuel : Nat) (first : Int) (len : Nat) (m : Int), len ≤ fuel →
      IsLB v first (first + (len : Int)) val m → lower_bound_loop v val fuel first len = m := by
  intro fuel
  induction fuel with
  | zero =>
    intro first len m hlen h
    obtain ⟨h1, h2, -, -⟩ := h
    simp only [lower_bound_loop]
    omega
  | succ fuel ih =>
    intro first len m hlen h
    obtain ⟨h1, h2, h3, h4⟩ := h
    simp only [lower_bound_loop]
    split_ifs with hpos hlt
    · have hm : first + ((len / 2 : Nat) : Int) < m := by
        by_contra hcon
        have := h4 (first + ((len / 2 : Nat) : Int)) (by omega) (by omega)
        omega
      apply ih
      · omega
      · refine ⟨by omega, by omega, fun j hj1 hj2 => h3 j (by omega) hj2, fun j hj1 hj2 => h4 j hj1 (by omega)⟩
    · have hm : m ≤ first + ((len / 2 : Nat) : Int) := by
        by_contra hcon
        have := h3 (first + ((len / 2 : Nat) : Int)) (by omega) (by omega)
        omega
      apply ih
      · omega
      · exact ⟨h1, hm, h3, fun j hj1 hj2 => h4 j hj1 (by omega)⟩
    · omega


theorem lower_bound_eq (v : List Int) (a b val m : Int) (h : IsLB v a b val m) :
    lower_bound v a b val = m := by
  have hab : a ≤ b := le_trans h.1 h.2.1
  unfold lower_bound
  apply lower_bound_loop_eq v val _ a _ m (le_refl _)
  have e : a + (((b - a).toNat : Nat) : Int) = b := by omega
  rw [e]
  exact h

theorem IsLB.unique {v : List Int} {a b val m m' : Int} (h : IsLB v a b val m)
    (h' : IsLB v a b val m') : m = m' := by
  obtain ⟨h1, h2, h3, h4⟩ := h
  obtain ⟨h1', h2', h3', h4'⟩ := h'
  rcases lt_trichotomy m m' with hlt | heq | hgt
  · have := h4 m (le_refl _) (by omega)
    have := h3' m h1 hlt
    omega
  · exact heq
  · have := h4' m' (le_refl _) (by omega)
    have := h3 m' h1' hgt
    omega

/-- A weakly increasing range has a split point for every value. -/
theorem IsLB.exists_of_mono (v : List Int) (val : Int) (a : Int) :
    ∀ (n : Nat), (∀ j k : Int, a ≤ j → j ≤ k → k < a + (n : Int) → rdInt v j ≤ rdInt v k) →
      ∃ m, IsLB v a (a + (n : Int)) val m := by
  intro n
  induction n with
  | zero =>
    intro _
    exact ⟨a, le_refl _, by simp, fun j h1 h2 => by omega, fun j h1 h2 => by
      simp at h2; omega⟩
  | succ n ih =>
    intro hmono
    obtain ⟨m, h1, h2, h3, h4⟩ := ih (fun j k hj hjk hk => hmono j k hj hjk (by push_cast; omega))
    by_cases hm : m < a + (n : Int)
    · refine ⟨m, h1, by push_cast; omega, h3, fun j hj1 hj2 => ?_⟩
      have e1 := h4 m (le_refl _) hm
      have e2 := hmono m j (by omega) hj1 hj2
      omega
    · have hme : m = a + (n : Int) := by omega
      by_cases hv : rdInt v (a + (n : Int)) < val
      · refine ⟨a + (n : Int) + 1, by omega, by push_cast; omega, fun j hj1 hj2 => ?_,
          fun j hj1 hj2 => by push_cast at hj2; omega⟩
        by_cases hj : j < m
        · exact h3 j hj1 hj
        · have : j = a + (n : Int) := by omega
          rw [this]; exact hv
      · refine ⟨m, h1, by push_cast; omega, h3, fun j hj1 hj2 => ?_⟩
        have : j = a + (n : Int) := by push_cast at hj2; omega
        rw [this]; omega

/-! ## Consequences of the data-model invariants -/

theorem rdAt_mono (p : List Int) (n : Nat) (h : ∀ c, c < n → rdAt p c ≤ rdAt p (c + 1)) :
    ∀ (d c : Nat), c ≤ d → d ≤ n → rdAt p c ≤ rdAt p d := by
  intro d
  induction d with
  | zero => intro c hc _; have : c = 0 := by omega
            subst this; exact le_refl _
  | succ d ih =>
    intro c hc hd
    by_cases hcd : c = d + 1
    · subst hcd; exact le_refl _
    · exact le_trans (ih c (by omega) (by omega)) (h d (by omega))

theorem WellFormed.p_mono {α : Type} {s : Reader α} (h : WellFormed s) :
    ∀ (d c : Nat), c ≤ d → d ≤ s.ncol → rdAt s.p c ≤ rdAt s.p d :=
  rdAt_mono s.p s.ncol h.2.2.2.2.1

theorem WellFormed.p_nonneg {α : Type} {s : Reader α} (h : WellFormed s) (c : Nat)
    (hc : c ≤ s.ncol) : 0 ≤ rdAt s.p c := by
  have := h.p_mono c 0 (Nat.zero_le _) hc
  rw [h.2.2.1] at this
  exact this

theorem WellFormed.p_le_nnz {α : Type} {s : Reader α} (h : WellFormed s) (c : Nat)
    (hc : c ≤ s.ncol) : rdAt s.p c ≤ (s.i.length : Int) := by
  have := h.p_mono s.ncol c hc (le_refl _)
  rw [h.2.2.2.1] at this
  exact this

theorem WellFormed.i_range {α : Type} {s : Reader α} (h : WellFormed s) (k : Int)
    (h0 : 0 ≤ k) (h1 : k < (s.i.length : Int)) :
    0 ≤ rdInt s.i k ∧ rdInt s.i k < (s.nrow : Int) := by
  rw [rdInt_eq_rdAt]
  exact h.2.2.2.2.2.2 k.toNat (by omega)

theorem WellFormed.i_succ {α : Type} {s : Reader α} (h : WellFormed s) (c : Nat)
    (hc : c < s.ncol) (k : Int) (h0 : rdAt s.p c ≤ k) (h1 : k + 1 < rdAt s.p (c + 1)) :
    rdInt s.i k < rdInt s.i (k + 1) := by
  have hp := h.p_nonneg c (by omega)
  have hn := h.p_le_nnz (c + 1) (by omega)
  have := h.2.2.2.2.2.1 c hc k.toNat (by omega) (by omega) (by omega)
  rw [rdInt_eq_rdAt, rdInt_eq_rdAt]
  have e : (k + 1).toNat = k.toNat + 1 := by omega
  rw [e]
  exact this

theorem WellFormed.i_strict {α : Type} {s : Reader α} (h : WellFormed s) (c : Nat)
    (hc : c < s.ncol) (j : Int) (h0 : rdAt s.p c ≤ j) :
    ∀ (n : Nat), j + (n : Int) + 1 < rdAt s.p (c + 1) →
      rdInt s.i j < rdInt s.i (j + (n : Int) + 1) := by
  intro n
  induction n with
  | zero => intro hk; simpa using h.i_succ c hc j h0 (by simpa using hk)
  | succ n ih =>
    intro hk
    have a := ih (by push_cast at hk; omega)
    have b := h.i_succ c hc (j + (n : Int) + 1) (by omega) (by push_cast at hk; omega)
    have e : j + ((n + 1 : Nat) : Int) + 1 = j + (n : Int) + 1 + 1 := by push_cast; omega
    rw [e]
    omega

theorem WellFormed.i_lt {α : Type} {s : Reader α} (h : WellFormed s) (c : Nat)
    (hc : c < s.ncol) (j k : Int) (h0 : rdAt s.p c ≤ j) (hjk : j < k)
    (hk : k < rdAt s.p (c + 1)) : rdInt s.i j < rdInt s.i k := by
  have := h.i_strict c hc j h0 (k - j - 1).toNat (by omega)
  have e : j + (((k - j - 1).toNat : Nat) : Int) + 1 = k := by omega
  rw [e] at this
  exact this

theorem WellFormed.i_le {α : Type} {s : Reader α} (h : WellFormed s) (c : Nat)
    (hc : c < s.ncol) (j k : Int) (h0 : rdAt s.p c ≤ j) (hjk : j ≤ k)
    (hk : k < rdAt s.p (c + 1)) : rdInt s.i j ≤ rdInt s.i k := by
  rcases eq_or_lt_of_le hjk with e | l
  · subst e; exact le_refl _
  · exact le_of_lt (h.i_lt c hc j k h0 l hk)

/-- Every column has a cursor position for every row. -/
theorem WellFormed.exists_cursor {α : Type} {s : Reader α} (h : WellFormed s) (c r : Nat)
    (hc : c < s.ncol) : ∃ m, IsCursor s c r m := by
  have hm := h.2.2.2.2.1 c hc
  have := IsLB.exists_of_mono s.i (r : Int) (rdAt s.p c) (rdAt s.p (c + 1) - rdAt s.p c).toNat
    (fun j k hj hjk hk => h.i_le c hc j k hj hjk (by omega))
  have e : rdAt s.p c + (((rdAt s.p (c + 1) - rdAt s.p c).toNat : Nat) : Int)
      = rdAt s.p (c + 1) := by omega
  rw [e] at this
  exact this

theorem WellFormed.cursor_zero {α : Type} {s : Reader α} (h : WellFormed s) (c : Nat)
    (hc : c < s.ncol) : IsCursor s c 0 (rdAt s.p c) := by
  refine ⟨le_refl _, h.2.2.2.2.1 c hc, fun j h1 h2 => by omega, fun j h1 h2 => ?_⟩
  have hp := h.p_nonneg c (by omega)
  have hn := h.p_le_nnz (c + 1) (by omega)
  simpa using (h.i_range j (by omega) (by omega)).1

theorem WellFormed.cursor_nrow {α : Type} {s : Reader α} (h : WellFormed s) (c : Nat)
    (hc : c < s.ncol) : IsCursor s c s.nrow (rdAt s.p (c + 1)) := by
  refine ⟨h.2.2.2.2.1 c hc, le_refl _, fun j h1 h2 => ?_, fun j h1 h2 => by omega⟩
  have hp := h.p_nonneg c (by omega)
  have hn := h.p_le_nnz (c + 1) (by omega)
  exact (h.i_range j (by omega) (by omega)).2

/-! ## Element access -/

theorem get_body_eq {α : Type} {s : Reader α} {r c : Nat} {m : Int}
    (hm : IsCursor s c r m) :
    get_body s r c =
      if m ≠ rdAt s.p (c + 1) ∧ rdInt s.i m = (r : Int) then rdVal s.x s.empty m else s.empty := by
  simp only [get_body]
  rw [lower_bound_eq s.i _ _ _ m hm]

theorem get_eq_some {α : Type} (s : Reader α) (r c : Nat) (hr : r < s.nrow) (hc : c < s.ncol) :
    get s r c = some (get_body s r c) := by
  simp [get, check_oneargs, hr, hc]

/-- The value `get_body` returns when row `r` is stored at offset `k` of column `c`. -/
theorem get_body_found {α : Type} {s : Reader α} (h : WellFormed s) {r c : Nat}
    (hc : c < s.ncol) (k : Int) (h0 : rdAt s.p c ≤ k) (h1 : k < rdAt s.p (c + 1))
    (hk : rdInt s.i k = (r : Int)) : get_body s r c = rdVal s.x s.empty k := by
  obtain ⟨m, hm⟩ := h.exists_cursor c r hc
  rw [get_body_eq hm]
  have hmk : m = k := by
    obtain ⟨a1, a2, a3, a4⟩ := hm
    rcases lt_trichotomy m k with hlt | heq | hgt
    · have e1 := a4 m (le_refl _) (by omega)
      have e2 := h.i_lt c hc m k a1 hlt h1
      omega
    · exact heq
    · have := a3 k h0 hgt
      omega
  subst hmk
  rw [if_pos ⟨by omega, hk⟩]

/-- The value `get_body` returns when row `r` is not stored in column `c`. -/
theorem get_body_absent {α : Type} {s : Reader α} (h : WellFormed s) {r c : Nat}
    (hc : c < s.ncol)
    (hk : ∀ k : Int, rdAt s.p c ≤ k → k < rdAt s.p (c + 1) → rdInt s.i k ≠ (r : Int)) :
    get_body s r c = s.empty := by
  obtain ⟨m, hm⟩ := h.exists_cursor c r hc
  rw [get_body_eq hm]
  rw [if_neg]
  rintro ⟨a, b⟩
  exact hk m hm.1 (lt_of_le_of_ne hm.2.1 a) b

theorem rdVal_eq_getElem? {α : Type} (x : List α) (d : α) (k : Int) (h : k.toNat < x.length) :
    some (rdVal x d k) = x[k.toNat]? := by
  simp [rdVal, List.getD, List.getElem?_eq_getElem h]

/-- C3: on a store with the data-model invariants and for in-bounds `(r, c)`, `get(r, c)`
is `x[k]` for any offset `k` of the run of column `c` with `i[k] = r`, such an offset is
unique, and `get(r, c)` is the empty value when the run has no such offset. -/
theorem get_spec {α : Type} (s : Reader α) (h : WellFormed s) (r c : Nat)
    (hr : r < s.nrow) (hc : c < s.ncol) :
    (∀ k : Nat, rdAt s.p c ≤ (k : Int) → (k : Int) < rdAt s.p (c + 1) → rdAt s.i k = (r : Int) →
      get s r c = s.x[k]? ∧
      ∀ k' : Nat, rdAt s.p c ≤ (k' : Int) → (k' : Int) < rdAt s.p (c + 1) →
        rdAt s.i k' = (r : Int) → k' = k) ∧
    ((∀ k : Nat, rdAt s.p c ≤ (k : Int) → (k : Int) < rdAt s.p (c + 1) →
      rdAt s.i k ≠ (r : Int)) → get s r c = some s.empty) := by
  have hp := h.p_nonneg c (by omega)
  have hn := h.p_le_nnz (c + 1) (by omega)
  refine ⟨fun k h0 h1 hk => ⟨?_, fun k' h0' h1' hk' => ?_⟩, fun hno => ?_⟩
  · rw [get_eq_some s r c hr hc,
      get_body_found h hc (k : Int) h0 h1 (by rw [rdInt_natCast]; exact hk)]
    have := rdVal_eq_getElem? s.x s.empty (k : Int) (by have := h.2.1; simp; omega)
    simpa using this
  · by_contra hne
    rcases Nat.lt_or_gt_of_ne hne with hlt | hgt
    · have := h.i_lt c hc (k' : Int) (k : Int) h0' (by omega) h1
      rw [rdInt_natCast, rdInt_natCast] at this
      omega
    · have := h.i_lt c hc (k : Int) (k' : Int) h0 (by omega) h1'
      rw [rdInt_natCast, rdInt_natCast] at this
      omega
  · rw [get_eq_some s r c hr hc, get_body_absent h hc]
    intro k h0 h1
    have := hno k.toNat (by omega) (by omega)
    rw [rdInt_eq_rdAt]
    exact this

/-- C3, at the store `p = [0,2,2,4]`, `i = [0,3,1,3]`, `x = [10,40,20,50]`. -/
theorem get_spec_witness :
    WellFormed (⟨4, 3, [0,3,1,3], [0,2,2,4], [10,40,20,50], 0, ⟨0, 0, 3, []⟩⟩ : Reader Int) ∧
    get (⟨4, 3, [0,3,1,3], [0,2,2,4], [10,40,20,50], 0, ⟨0, 0, 3, []⟩⟩ : Reader Int) 3 0
      = some 40 :=
  ⟨by decide, by
    have := (get_spec (⟨4, 3, [0,3,1,3], [0,2,2,4], [10,40,20,50], 0, ⟨0, 0, 3, []⟩⟩ : Reader Int)
      (by decide) 3 0 (by decide) (by decide)).1 1 (by decide) (by decide) (by decide)
    exact this.1⟩

/-! ## Constructor -/

theorem check_p_loop_eq_none_iff (p : List Int) :
    ∀ (n px : Nat), check_p_loop p px n = none ↔
      ∀ c, px ≤ c → c < px + n → 0 ≤ rdAt p c ∧ rdAt p c ≤ rdAt p (c + 1) := by
  intro n
  induction n with
  | zero => intro px; simp only [check_p_loop, true_iff]; intro c h1 h2; omega
  | succ n ih =>
    intro px
    simp only [check_p_loop]
    split_ifs with h1 h2
    · simp only [false_iff, not_forall]
      exact ⟨px, le_refl _, by omega, fun h => by omega⟩
    · simp only [false_iff, not_forall]
      exact ⟨px, le_refl _, by omega, fun h => by omega⟩
    · rw [ih]
      constructor
      · intro h c hc1 hc2
        by_cases e : c = px
        · subst e; constructor <;> omega
        · exact h c (by omega) (by omega)
      · intro h c hc1 hc2
        exact h c (by omega) (by omega)

theorem check_i_run_eq_none_iff (i : List Int) :
    ∀ (n : Nat) (ix : Int), check_i_run i n ix = none ↔
      ∀ k : Int, ix ≤ k → k < ix + (n : Int) → rdInt i k ≤ rdInt i (k + 1) := by
  intro n
  induction n with
  | zero => intro ix; simp only [check_i_run, true_iff]; intro k h1 h2; simp at h2; omega
  | succ n ih =>
    intro ix
    simp only [check_i_run]
    split_ifs with h1
    · simp only [false_iff, not_forall]
      exact ⟨ix, le_refl _, by push_cast; omega, fun h => by omega⟩
    · rw [ih]
      constructor
      · intro h k hk1 hk2
        by_cases e : k = ix
        · subst e; omega
        · exact h k (by omega) (by push_cast at hk2; omega)
      · intro h k hk1 hk2
        exact h k (by omega) (by push_cast; omega)

theorem check_i_run_eq_some (i : List Int) (n : Nat) (ix : Int) (e : CtorError)
    (h : check_i_run i n ix = some e) : e = .iUnsorted := by
  induction n generalizing ix with
  | zero => simp [check_i_run] at h
  | succ n ih =>
    simp only [check_i_run] at h
    split_ifs at h with h1
    · simpa using h.symm
    · exact ih _ h

theorem check_i_loop_eq_none_iff (i p : List Int) :
    ∀ (n px : Nat), check_i_loop i p px n = none ↔
      ∀ c, px ≤ c → c < px + n → ∀ k : Int, rdAt p c ≤ k → k + 1 < rdAt p (c + 1) →
        rdInt i k ≤ rdInt i (k + 1) := by
  intro n
  induction n with
  | zero => intro px; simp only [check_i_loop, true_iff]; intro c h1 h2; omega
  | succ n ih =>
    intro px
    simp only [check_i_loop]
    cases hrun : check_i_run i (rdAt p (px + 1) - 1 - rdAt p px).toNat (rdAt p px) with
    | some e =>
      simp only [false_iff, reduceCtorEq]
      have hne : ¬ check_i_run i (rdAt p (px + 1) - 1 - rdAt p px).toNat (rdAt p px) = none := by
        rw [hrun]; simp
      rw [check_i_run_eq_none_iff] at hne
      simp only [not_forall] at hne
      obtain ⟨k, hk1, hk2, hk3⟩ := hne
      intro h
      exact hk3 (h px (le_refl _) (by omega) k hk1 (by omega))
    | none =>
      simp only
      rw [check_i_run_eq_none_iff] at hrun
      rw [ih]
      constructor
      · intro h c hc1 hc2 k hk1 hk2
        by_cases e : c = px
        · subst e; exact hrun k hk1 (by omega)
        · exact h c (by omega) (by omega) k hk1 hk2
      · intro h c hc1 hc2
        exact h c (by omega) (by omega)

theorem check_i_loop_eq_some (i p : List Int) (n px : Nat) (e : CtorError)
    (h : check_i_loop i p px n = some e) : e = .iUnsorted := by
  induction n generalizing px with
  | zero => simp [check_i_loop] at h
  | succ n ih =>
    simp only [check_i_loop] at h
    cases hrun : check_i_run i (rdAt p (px + 1) - 1 - rdAt p px).toNat (rdAt p px) with
    | some e' =>
      rw [hrun] at h
      simp only [Option.some.injEq] at h
      subst h
      exact check_i_run_eq_some _ _ _ _ hrun
    | none =>
      rw [hrun] at h
      exact ih _ h

theorem check_i_range_eq_none_iff (nrow : Nat) (l : List Int) :
    check_i_range nrow l = none ↔ ∀ k, k < l.length → 0 ≤ rdAt l k ∧ rdAt l k < (nrow : Int) := by
  induction l with
  | nil => simp [check_i_range]
  | cons a l ih =>
    simp only [check_i_range]
    split_ifs with h1
    · simp only [false_iff, not_forall]
      refine ⟨0, by simp, ?_⟩
      simp only [rdAt, List.getD_cons_zero]
      omega
    · rw [ih]
      constructor
      · intro h k hk
        cases k with
        | zero => simp only [rdAt, List.getD_cons_zero]; omega
        | succ k =>
          simp only [rdAt, List.getD_cons_succ]
          exact h k (by simpa using hk)
      · intro h k hk
        have := h (k + 1) (by simpa using hk)
        simpa only [rdAt, List.getD_cons_succ] using this

/-- The constructor builds the reader exactly when the eight checks pass, the column scan
testing `i[k] <= i[k+1]` for adjacent offsets of a run. -/
theorem Csparse_reader_eq_ok_iff {α : Type} (sexp : Nat) (empty : α) (ncol0 : Nat)
    (inc : Incoming α) (rd : Reader α) :
    Csparse_reader sexp empty ncol0 inc = .ok rd ↔
      (inc.xtype = sexp ∧ inc.x.length = inc.i.length ∧ inc.ncol + 1 = inc.p.length ∧
        rdAt inc.p 0 = 0 ∧ rdAt inc.p inc.ncol = (inc.x.length : Int) ∧
        (∀ c, c < inc.ncol → 0 ≤ rdAt inc.p c ∧ rdAt inc.p c ≤ rdAt inc.p (c + 1)) ∧
        (∀ c, c < inc.ncol → ∀ k : Int, rdAt inc.p c ≤ k → k + 1 < rdAt inc.p (c + 1) →
          rdInt inc.i k ≤ rdInt inc.i (k + 1)) ∧
        (∀ k, k < inc.i.length → 0 ≤ rdAt inc.i k ∧ rdAt inc.i k < (inc.nrow : Int))) ∧
      rd = inc.reader empty ncol0 := by
  have hp := check_p_loop_eq_none_iff inc.p inc.ncol 0
  have hi := check_i_loop_eq_none_iff inc.i inc.p inc.ncol 0
  have hr := check_i_range_eq_none_iff inc.nrow inc.i
  simp only [Nat.zero_le, zero_add, true_implies] at hp hi
  simp only [Csparse_reader]
  split_ifs with h1 h2 h3 h4 h5
  · simp only [false_iff, reduceCtorEq]
    rintro ⟨⟨a, -⟩, -⟩
    exact h1 a
  · simp only [false_iff, reduceCtorEq]
    rintro ⟨⟨-, a, -⟩, -⟩
    exact h2 a
  · simp only [false_iff, reduceCtorEq]
    rintro ⟨⟨-, -, a, -⟩, -⟩
    exact h3 a
  · simp only [false_iff, reduceCtorEq]
    rintro ⟨⟨-, -, -, a, -⟩, -⟩
    exact h4 a
  · simp only [false_iff, reduceCtorEq]
    rintro ⟨⟨-, -, -, -, a, -⟩, -⟩
    exact h5 a
  · cases h6 : check_p_loop inc.p 0 inc.ncol with
    | some e =>
      simp only [false_iff, reduceCtorEq]
      rintro ⟨⟨-, -, -, -, -, a, -⟩, -⟩
      rw [hp.mpr a] at h6
      simp at h6
    | none =>
      cases h7 : check_i_loop inc.i inc.p 0 inc.ncol with
      | some e =>
        simp only [false_iff, reduceCtorEq]
        rintro ⟨⟨-, -, -, -, -, -, a, -⟩, -⟩
        rw [hi.mpr a] at h7
        simp at h7
      | none =>
        cases h8 : check_i_range inc.nrow inc.i with
        | some e =>
          simp only [false_iff, reduceCtorEq]
          rintro ⟨⟨-, -, -, -, -, -, -, a⟩, -⟩
          rw [hr.mpr a] at h8
          simp at h8
        | none =>
          simp only [Except.ok.injEq]
          constructor
          · intro h
            push_neg at h1 h2 h3 h4 h5
            exact ⟨⟨h1, h2, h3, h4, h5, hp.mp h6, hi.mp h7, hr.mp h8⟩, h.symm⟩
          · rintro ⟨-, h⟩
            exact h.symm

theorem Incoming.Valid.wellFormed {α : Type} {sexp : Nat} {inc : Incoming α}
    (h : inc.Valid sexp) (empty : α) (ncol0 : Nat) : WellFormed (inc.reader empty ncol0) := by
  obtain ⟨-, h2, h3, h4, h5, h6, h7, h8⟩ := h
  refine ⟨h3, h2.symm, h4, ?_, fun c hc => (h6 c hc).2, h7, h8⟩
  show rdAt inc.p inc.ncol = (inc.i.length : Int)
  rw [h5, h2]

/-- C5: the constructor accepts every input that satisfies the structural conditions of
section 4.1, and the reader it builds holds the arrays and dimensions of the input. -/
theorem ctor_accepts_valid {α : Type} (sexp : Nat) (empty : α) (ncol0 : Nat)
    (inc : Incoming α) (h : inc.Valid sexp) :
    Csparse_reader sexp empty ncol0 inc = .ok (inc.reader empty ncol0) := by
  have hw := h.wellFormed empty ncol0
  obtain ⟨h1, h2, h3, h4, h5, h6, h7, h8⟩ := h
  rw [Csparse_reader_eq_ok_iff]
  refine ⟨⟨h1, h2.symm, h3.symm, h4, h5, h6, fun c hc k hk1 hk2 => ?_, h8⟩, rfl⟩
  exact le_of_lt (hw.i_succ c hc k hk1 hk2)

/-- C5, at the 4x3 input `p = [0,2,2,4]`, `i = [0,3,1,3]`, `x = [10,40,20,50]`. -/
theorem ctor_accepts_valid_witness :
    (⟨4, 3, [0,3,1,3], [0,2,2,4], [10,40,20,50], 13⟩ : Incoming Int).Valid 13 ∧
    Csparse_reader 13 (0 : Int) 0 ⟨4, 3, [0,3,1,3], [0,2,2,4], [10,40,20,50], 13⟩
      = .ok ⟨4, 3, [0,3,1,3], [0,2,2,4], [10,40,20,50], 0, ⟨0, 0, 0, []⟩⟩ :=
  ⟨by decide, ctor_accepts_valid 13 (0 : Int) 0 ⟨4, 3, [0,3,1,3], [0,2,2,4], [10,40,20,50], 13⟩
    (by decide)⟩

/-- C6: every input the constructor accepts has `p[0] = 0`, `p[ncol] = len(i) = len(x)`,
`0 <= p[c] <= p[c+1] <= len(i)` for every column `c`, and every element of `i` in
`[0, nrow)`. -/
theorem ctor_ok_invariants {α : Type} (sexp : Nat) (empty : α) (ncol0 : Nat)
    (inc : Incoming α) (rd : Reader α) (h : Csparse_reader sexp empty ncol0 inc = .ok rd) :
    rdAt inc.p 0 = 0 ∧
    rdAt inc.p inc.ncol = (inc.i.length : Int) ∧
    inc.i.length = inc.x.length ∧
    (∀ c, c < inc.ncol → 0 ≤ rdAt inc.p c ∧ rdAt inc.p c ≤ rdAt inc.p (c + 1) ∧
      rdAt inc.p (c + 1) ≤ (inc.i.length : Int)) ∧
    (∀ k, k < inc.i.length → 0 ≤ rdAt inc.i k ∧ rdAt inc.i k < (inc.nrow : Int)) := by
  rw [Csparse_reader_eq_ok_iff] at h
  obtain ⟨⟨-, h2, -, h4, h5, h6, -, h8⟩, -⟩ := h
  refine ⟨h4, by rw [h5, h2], h2.symm, fun c hc => ⟨(h6 c hc).1, (h6 c hc).2, ?_⟩, h8⟩
  have := rdAt_mono inc.p inc.ncol (fun c hc => (h6 c hc).2) inc.ncol (c + 1) (by omega)
    (le_refl _)
  rw [h5, h2] at this
  exact this

/-- C6, at the 4x3 input `p = [0,2,2,4]`, `i = [0,3,1,3]`, `x = [10,40,20,50]`. -/
theorem ctor_ok_invariants_witness :
    Csparse_reader 13 (0 : Int) 0 ⟨4, 3, [0,3,1,3], [0,2,2,4], [10,40,20,50], 13⟩
      = .ok ⟨4, 3, [0,3,1,3], [0,2,2,4], [10,40,20,50], 0, ⟨0, 0, 0, []⟩⟩ ∧
    rdAt [0,2,2,4] 0 = 0 ∧ rdAt [0,2,2,4] 3 = ((([0,3,1,3] : List Int).length : Nat) : Int) :=
  have h := ctor_ok_invariants 13 (0 : Int) 0 ⟨4, 3, [0,3,1,3], [0,2,2,4], [10,40,20,50], 13⟩
    ⟨4, 3, [0,3,1,3], [0,2,2,4], [10,40,20,50], 0, ⟨0, 0, 0, []⟩⟩ rfl
  ⟨rfl, h.1, h.2.1⟩

/-- The error kind the constructor reports does not depend on the value `this->ncol` has
when the member initialisers run. -/
theorem ctor_kind_ncol0 {α : Type} (sexp : Nat) (empty : α) (ncol0 ncol1 : Nat)
    (inc : Incoming α) :
    ctor_kind sexp empty ncol0 inc = ctor_kind sexp empty ncol1 inc := by
  simp only [ctor_kind, Csparse_reader]
  split_ifs <;> try rfl
  cases check_p_loop inc.p 0 inc.ncol with
  | some e => rfl
  | none =>
    cases check_i_loop inc.i inc.p 0 inc.ncol with
    | some e => rfl
    | none =>
      cases check_i_range inc.nrow inc.i with
      | some e => rfl
      | none => rfl

/-- C4: the constructor builds a reader from the 2x1 input `p = [0,2]`, `i = [1,1]`,
whose only column holds row index 1 at two adjacent offsets; the conditions of
section 4.1 fail there at the strict increase of the row indices (`UnsortedRows`). -/
theorem ctor_accepts_repeated_row (ncol0 : Nat) :
    ¬ (⟨2, 1, [1,1], [0,2], [5,6], 13⟩ : Incoming Int).Valid 13 ∧
    spec_validate 13 (⟨2, 1, [1,1], [0,2], [5,6], 13⟩ : Incoming Int) = some .UnsortedRows ∧
    rdAt [1,1] 0 = rdAt [1,1] 1 ∧
    ctor_kind 13 (0 : Int) ncol0 ⟨2, 1, [1,1], [0,2], [5,6], 13⟩ = none := by
  refine ⟨by decide, by decide, by decide, ?_⟩
  rw [ctor_kind_ncol0 13 (0 : Int) ncol0 0]
  decide

/-- C7: on the 1x1 input `p = [0,2]`, `i = [1,1]` the first failing condition of
section 4.1 is the strict increase of the row indices (`UnsortedRows`), and the
constructor reports `RowOutOfRange`. -/
theorem ctor_kind_repeated_row_out_of_range (ncol0 : Nat) :
    spec_validate 13 (⟨1, 1, [1,1], [0,2], [5,6], 13⟩ : Incoming Int) = some .UnsortedRows ∧
    ctor_kind 13 (0 : Int) ncol0 ⟨1, 1, [1,1], [0,2], [5,6], 13⟩ = some .RowOutOfRange := by
  refine ⟨by decide, ?_⟩
  rw [ctor_kind_ncol0 13 (0 : Int) ncol0 0]
  decide

/-! ## Loops over the column window -/

theorem getD_set_int (ind : List Int) (c j : Nat) (v : Int) :
    (ind.set c v).getD j 0 = if c = j ∧ c < ind.length then v else ind.getD j 0 := by
  simp only [List.getD_eq_getElem?_getD, List.getElem?_set]
  by_cases h1 : c = j
  · subst h1
    by_cases h2 : c < ind.length
    · simp [h2]
    · simp [h2, List.getElem?_eq_none (Nat.le_of_not_lt h2)]
  · simp [h1]

/-- A loop whose round at `c` rewrites only `indices[c]`, as a function of its old value. -/
theorem foldl_columns (g : Nat → Int → Int) :
    ∀ (n first : Nat) (ind : List Int),
      ((List.range' first n).foldl (fun st c => with_curdex g c st) ind).length = ind.length ∧
      ∀ c, c < ind.length →
        ((List.range' first n).foldl (fun st c => with_curdex g c st) ind).getD c 0 =
          if first ≤ c ∧ c < first + n then g c (ind.getD c 0) else ind.getD c 0 := by
  intro n
  induction n with
  | zero =>
    intro first ind
    refine ⟨rfl, fun c hc => ?_⟩
    rw [if_neg (by omega)]
    rfl
  | succ n ih =>
    intro first ind
    rw [List.range'_succ, List.foldl_cons, with_curdex]
    obtain ⟨h1, h2⟩ := ih (first + 1) (ind.set first (g first (ind.getD first 0)))
    rw [List.length_set] at h1 h2
    refine ⟨h1, fun c hc => ?_⟩
    rw [h2 c hc, getD_set_int]
    by_cases e : first = c
    · subst e
      have a : ¬ (first + 1 ≤ first ∧ first < first + 1 + n) := by omega
      have b : first ≤ first ∧ first < first + (n + 1) := by omega
      simp only [a, b, hc, if_false, if_true, and_self]
    · have a : ¬ (first = c ∧ first < ind.length) := fun h => e h.1
      simp only [a, if_false]
      by_cases e2 : first + 1 ≤ c ∧ c < first + 1 + n
      · rw [if_pos e2, if_pos ⟨by omega, by omega⟩]
      · rw [if_neg e2, if_neg (by omega)]

theorem forRange_columns (g : Nat → Int → Int) (first last : Nat) (ind : List Int) :
    (forRange first last (with_curdex g) ind).length = ind.length ∧
    ∀ c, c < ind.length →
      (forRange first last (with_curdex g) ind).getD c 0 =
        if first ≤ c ∧ c < last then g c (ind.getD c 0) else ind.getD c 0 := by
  obtain ⟨h1, h2⟩ := foldl_columns g (last - first) first ind
  refine ⟨h1, fun c hc => ?_⟩
  unfold forRange
  rw [h2 c hc]
  by_cases e : first ≤ c ∧ c < last
  · rw [if_pos e, if_pos ⟨e.1, by omega⟩]
  · rw [if_neg e, if_neg (by omega)]

/-! ## The four cursor moves, one column at a time -/

theorem IsCursor.step_forward {α : Type} {s : Reader α} (h : WellFormed s) {c r : Nat}
    (hc : c < s.ncol) {k : Int} (hk : IsCursor s c r k) :
    IsCursor s c (r + 1) (Beachmat.step_forward s (r + 1) c k) := by
  obtain ⟨h1, h2, h3, h4⟩ := hk
  unfold Beachmat.step_forward
  split_ifs with hif
  · obtain ⟨hne, hlt⟩ := hif
    refine ⟨by omega, by omega, fun j hj1 hj2 => ?_, fun j hj1 hj2 => ?_⟩
    · by_cases e : j = k
      · subst e; exact hlt
      · have := h3 j hj1 (by omega); push_cast; omega
    · have a := h4 k (le_refl _) (by omega)
      have b := h.i_lt c hc k j h1 (by omega) hj2
      push_cast; omega
  · refine ⟨h1, h2, fun j hj1 hj2 => ?_, fun j hj1 hj2 => ?_⟩
    · have := h3 j hj1 hj2; push_cast; omega
    · have hk2 : k < rdAt s.p (c + 1) := by omega
      have hge : ((r + 1 : Nat) : Int) ≤ rdInt s.i k := by
        by_contra hcon
        exact hif ⟨by omega, by omega⟩
      have := h.i_le c hc k j h1 hj1 hj2
      omega

theorem IsCursor.step_backward {α : Type} {s : Reader α} (h : WellFormed s) {c r : Nat}
    (hc : c < s.ncol) {k : Int} (hk : IsCursor s c (r + 1) k) :
    IsCursor s c r (Beachmat.step_backward s r c k) := by
  obtain ⟨h1, h2, h3, h4⟩ := hk
  unfold Beachmat.step_backward
  split_ifs with hif
  · obtain ⟨hne, hge⟩ := hif
    refine ⟨by omega, by omega, fun j hj1 hj2 => ?_, fun j hj1 hj2 => ?_⟩
    · have a := h3 (k - 1) (by omega) (by omega)
      have b := h.i_lt c hc j (k - 1) hj1 hj2 (by omega)
      push_cast at a; omega
    · by_cases e : j = k - 1
      · subst e; exact hge
      · have := h4 j (by omega) hj2; push_cast at this; omega
  · refine ⟨h1, h2, fun j hj1 hj2 => ?_, fun j hj1 hj2 => ?_⟩
    · have hk2 : k ≠ rdAt s.p c := by omega
      have hlt : rdInt s.i (k - 1) < (r : Int) := by
        by_contra hcon
        exact hif ⟨hk2, by omega⟩
      have := h.i_le c hc j (k - 1) hj1 (by omega) (by omega)
      omega
    · have := h4 j hj1 hj2; push_cast at this; omega

theorem IsCursor.jump_forward {α : Type} {s : Reader α} (h : WellFormed s) {c r0 r : Nat}
    (hc : c < s.ncol) (hr : r0 ≤ r) {k : Int} (hk : IsCursor s c r0 k) :
    IsCursor s c r (Beachmat.jump_forward s r c k) := by
  unfold Beachmat.jump_forward
  obtain ⟨m, hm⟩ := h.exists_cursor c r hc
  obtain ⟨h1, h2, h3, h4⟩ := hk
  obtain ⟨m1, m2, m3, m4⟩ := hm
  have hkm : k ≤ m := by
    by_contra hcon
    have a := h3 m m1 (by omega)
    have b := m4 m (le_refl _) (by omega)
    omega
  rw [lower_bound_eq s.i k _ _ m ⟨hkm, m2, fun j hj1 hj2 => m3 j (by omega) hj2, m4⟩]
  exact ⟨m1, m2, m3, m4⟩

theorem IsCursor.jump_backward {α : Type} {s : Reader α} (h : WellFormed s) {c r0 r : Nat}
    (hc : c < s.ncol) (hr : r ≤ r0) {k : Int} (hk : IsCursor s c r0 k) :
    IsCursor s c r (Beachmat.jump_backward s r c k) := by
  unfold Beachmat.jump_backward
  obtain ⟨m, hm⟩ := h.exists_cursor c r hc
  obtain ⟨h1, h2, h3, h4⟩ := hk
  obtain ⟨m1, m2, m3, m4⟩ := hm
  have hkm : m ≤ k := by
    by_contra hcon
    have a := m3 k h1 (by omega)
    have b := h4 k (le_refl _) (by omega)
    omega
  rw [lower_bound_eq s.i _ k _ m ⟨m1, hkm, m3, fun j hj1 hj2 => m4 j hj1 (by omega)⟩]
  exact ⟨m1, m2, m3, m4⟩

/-! ## `update_indices` -/

theorem getD_take_int (p : List Int) (n c : Nat) (hc : c < n) :
    (p.take n).getD c 0 = rdAt p c := by
  simp [rdAt, List.getD_eq_getElem?_getD, List.getElem?_take, hc]

/-- The cursor after the lazy materialization and the window test of `update_indices`
(source lines 126-142). -/
theorem update_indices_window {α : Type} {s : Reader α} (h : WellFormed s)
    (hcur : CursorOk s s.cur) (first last : Nat) (hl : last ≤ s.ncol) (ind0 : List Int)
    (hind0 : ind0 = if s.cur.indices.length ≠ s.ncol then s.p.take s.ncol else s.cur.indices)
    (st : Cursor)
    (hst : st = (if first ≠ s.cur.curstart ∨ last ≠ s.cur.curend then
      { curstart := first, curend := last,
        indices := forRange first last (with_curdex (fun px _ => rdAt s.p px)) ind0,
        currow := 0 }
      else { s.cur with indices := ind0 })) :
    st.curstart = first ∧ st.curend = last ∧ st.indices.length = s.ncol ∧
    ∀ c, first ≤ c → c < last → IsCursor s c st.currow (st.indices.getD c 0) := by
  have hlen0 : ind0.length = s.ncol := by
    rw [hind0]
    split_ifs with e
    · rw [List.length_take, h.1]; omega
    · push_neg at e; exact e
  by_cases hw : first ≠ s.cur.curstart ∨ last ≠ s.cur.curend
  · rw [if_pos hw] at hst
    subst hst
    obtain ⟨a, b⟩ := forRange_columns (fun c _ => rdAt s.p c) first last ind0
    refine ⟨rfl, rfl, by rw [← hlen0]; exact a, fun c hc1 hc2 => ?_⟩
    simp only
    rw [b c (by rw [hlen0]; omega), if_pos ⟨hc1, hc2⟩]
    exact h.cursor_zero c (by omega)
  · rw [if_neg hw] at hst
    subst hst
    push_neg at hw
    refine ⟨hw.1.symm, hw.2.symm, hlen0, fun c hc1 hc2 => ?_⟩
    simp only
    by_cases e : s.cur.indices.length ≠ s.ncol
    · rw [if_pos e] at hind0
      rw [hind0, getD_take_int _ _ _ (by omega), hcur.2 e]
      exact h.cursor_zero c (by omega)
    · rw [if_neg e] at hind0
      push_neg at e
      rw [hind0]
      exact hcur.1 e c (by omega) (by omega) (by omega)

/-- The cursor after `update_indices(r, first, last)`: it is at row `r` on the window
`[first, last)`, `indices` has `ncol` entries, and the entry of every column of the window
is the cursor position of that column for `r`. -/
theorem update_indices_spec {α : Type} {s : Reader α} (h : WellFormed s)
    (hcur : CursorOk s s.cur) (r first last : Nat) (hl : last ≤ s.ncol) :
    (update_indices s r first last).currow = r ∧
    (update_indices s r first last).curstart = first ∧
    (update_indices s r first last).curend = last ∧
    (update_indices s r first last).indices.length = s.ncol ∧
    ∀ c, first ≤ c → c < last →
      IsCursor s c r ((update_indices s r first last).indices.getD c 0) := by
  obtain ⟨ind0, hind0⟩ : ∃ ind0 : List Int, ind0 =
      if s.cur.indices.length ≠ s.ncol then s.p.take s.ncol else s.cur.indices := ⟨_, rfl⟩
  obtain ⟨st, hst⟩ : ∃ st : Cursor, st = (if first ≠ s.cur.curstart ∨ last ≠ s.cur.curend then
      { curstart := first, curend := last,
        indices := forRange first last (with_curdex (fun px _ => rdAt s.p px)) ind0,
        currow := 0 }
      else { s.cur with indices := ind0 }) := ⟨_, rfl⟩
  obtain ⟨w1, w2, w3, w4⟩ := update_indices_window h hcur first last hl ind0 hind0 st hst
  have key : update_indices s r first last =
      if r = st.currow then st
      else { st with
        indices :=
          if r = st.currow + 1 then
            forRange first last (with_curdex (step_forward s r)) st.indices
          else if r + 1 = st.currow then
            forRange first last (with_curdex (step_backward s r)) st.indices
          else if r > st.currow then
            forRange first last (with_curdex (jump_forward s r)) st.indices
          else forRange first last (with_curdex (jump_backward s r)) st.indices,
        currow := r } := by
    rw [hst, hind0]; rfl
  rw [key]
  split_ifs with e1 e2 e3 e4
  · refine ⟨e1.symm, w1, w2, w3, fun c hc1 hc2 => ?_⟩
    rw [e1]; exact w4 c hc1 hc2
  · obtain ⟨a, b⟩ := forRange_columns (step_forward s r) first last st.indices
    refine ⟨rfl, w1, w2, by rw [← w3]; exact a, fun c hc1 hc2 => ?_⟩
    simp only
    rw [b c (by omega), if_pos ⟨hc1, hc2⟩]
    have := (w4 c hc1 hc2).step_forward h (by omega)
    rw [← e2] at this
    exact this
  · obtain ⟨a, b⟩ := forRange_columns (step_backward s r) first last st.indices
    refine ⟨rfl, w1, w2, by rw [← w3]; exact a, fun c hc1 hc2 => ?_⟩
    simp only
    rw [b c (by omega), if_pos ⟨hc1, hc2⟩]
    have := w4 c hc1 hc2
    rw [← e3] at this
    exact this.step_backward h (by omega)
  · obtain ⟨a, b⟩ := forRange_columns (jump_forward s r) first last st.indices
    refine ⟨rfl, w1, w2, by rw [← w3]; exact a, fun c hc1 hc2 => ?_⟩
    simp only
    rw [b c (by omega), if_pos ⟨hc1, hc2⟩]
    exact (w4 c hc1 hc2).jump_forward h (by omega) (by omega)
  · obtain ⟨a, b⟩ := forRange_columns (jump_backward s r) first last st.indices
    refine ⟨rfl, w1, w2, by rw [← w3]; exact a, fun c hc1 hc2 => ?_⟩
    simp only
    rw [b c (by omega), if_pos ⟨hc1, hc2⟩]
    exact (w4 c hc1 hc2).jump_backward h (by omega) (by omega)

theorem update_indices_ok {α : Type} {s : Reader α} (h : WellFormed s)
    (hcur : CursorOk s s.cur) (r first last : Nat) (hl : last ≤ s.ncol) :
    CursorOk s (update_indices s r first last) := by
  obtain ⟨a, b, c, d, e⟩ := update_indices_spec h hcur r first last hl
  refine ⟨fun _ col h1 h2 _ => ?_, fun hne => absurd d hne⟩
  rw [a]
  exact e col (by omega) (by omega)

/-! ## `get_row` -/

/-- A loop over the columns `[a, a + n)` whose round at `c` stores `v c` at offset
`c - first` of the buffer when `P c` holds. -/
theorem foldl_out {β : Type} (d : β) (first : Nat) (P : Nat → Prop) [DecidablePred P]
    (v : Nat → β) :
    ∀ (n a : Nat) (out : List β), first ≤ a →
      ((List.range' a n).foldl
        (fun st c => if P c then st.set (c - first) (v c) else st) out).length = out.length ∧
      ∀ j, j < out.length →
        ((List.range' a n).foldl
          (fun st c => if P c then st.set (c - first) (v c) else st) out).getD j d =
          if a ≤ first + j ∧ first + j < a + n ∧ P (first + j) then v (first + j)
          else out.getD j d := by
  intro n
  induction n with
  | zero =>
    intro a out _
    refine ⟨rfl, fun j _ => ?_⟩
    rw [if_neg (by omega)]
    rfl
  | succ n ih =>
    intro a out ha
    rw [List.range'_succ, List.foldl_cons]
    obtain ⟨h1, h2⟩ := ih (a + 1) (if P a then out.set (a - first) (v a) else out) (by omega)
    have hlen : (if P a then out.set (a - first) (v a) else out).length = out.length := by
      split_ifs
      · rw [List.length_set]
      · rfl
    rw [hlen] at h1 h2
    refine ⟨h1, fun j hj => ?_⟩
    rw [h2 j hj]
    by_cases e : a = first + j
    · have e1 : ¬ (a + 1 ≤ first + j ∧ first + j < a + 1 + n ∧ P (first + j)) := by omega
      rw [if_neg e1]
      by_cases hp : P a
      · rw [if_pos hp, if_pos ⟨by omega, by omega, by rw [← e]; exact hp⟩]
        have : a - first = j := by omega
        rw [this, ← e]
        simp [List.getD_eq_getElem?_getD, List.getElem?_set, hj]
      · rw [if_neg hp, if_neg (by rw [← e]; tauto)]
    · have hget : (if P a then out.set (a - first) (v a) else out).getD j d = out.getD j d := by
        split_ifs
        · simp only [List.getD_eq_getElem?_getD]
          rw [List.getElem?_set_ne (by omega)]
        · rfl
      rw [hget]
      by_cases e2 : a + 1 ≤ first + j ∧ first + j < a + 1 + n ∧ P (first + j)
      · rw [if_pos e2, if_pos ⟨by omega, by omega, e2.2.2⟩]
      · rw [if_neg e2, if_neg]
        rintro ⟨b1, b2, b3⟩
        exact e2 ⟨by omega, by omega, b3⟩

/-- The buffer `get_row` writes, given the cursor it reads. -/
theorem get_row_out {α : Type} (s : Reader α) (cur : Cursor) (r first last : Nat) :
    forRange first last (get_row_body s cur r first) (List.replicate (last - first) s.empty) =
      (List.range' first (last - first)).map (fun c =>
        if cur.indices.getD c 0 ≠ rdAt s.p (c + 1) ∧
            rdInt s.i (cur.indices.getD c 0) = (r : Int) then
          rdVal s.x s.empty (cur.indices.getD c 0)
        else s.empty) := by
  obtain ⟨h1, h2⟩ := foldl_out s.empty first
    (fun c => cur.indices.getD c 0 ≠ rdAt s.p (c + 1) ∧
      rdInt s.i (cur.indices.getD c 0) = (r : Int))
    (fun c => rdVal s.x s.empty (cur.indices.getD c 0)) (last - first) first
    (List.replicate (last - first) s.empty) (le_refl _)
  have e : forRange first last (get_row_body s cur r first)
      (List.replicate (last - first) s.empty) =
      (List.range' first (last - first)).foldl
        (fun st c => if cur.indices.getD c 0 ≠ rdAt s.p (c + 1) ∧
            rdInt s.i (cur.indices.getD c 0) = (r : Int) then
          st.set (c - first) (rdVal s.x s.empty (cur.indices.getD c 0)) else st)
        (List.replicate (last - first) s.empty) := rfl
  rw [e]
  rw [List.length_replicate] at h1 h2
  apply List.ext_getElem
  · rw [h1]; simp
  · intro j hj1 hj2
    rw [h1] at hj1
    have := h2 j hj1
    rw [List.getD_eq_getElem _ _ (by rw [h1]; exact hj1)] at this
    rw [this]
    simp only [List.getElem_map, List.getElem_range', one_mul]
    by_cases hp : cur.indices.getD (first + j) 0 ≠ rdAt s.p (first + j + 1) ∧
        rdInt s.i (cur.indices.getD (first + j) 0) = (r : Int)
    · rw [if_pos ⟨le_add_right (le_refl _), by omega, hp⟩, if_pos hp]
    · rw [if_neg (fun h => hp h.2.2), if_neg hp]
      simp [List.getD_eq_getElem?_getD, hj1]

/-- One call of `get_row` with in-bounds arguments on a consistent cursor: the buffer
holds `get(r, c)` for the columns `c` of the window, and the cursor stays consistent. -/
theorem get_row_spec {α : Type} {s : Reader α} (h : WellFormed s) (hcur : CursorOk s s.cur)
    (r first last : Nat) (hr : r < s.nrow) (hfl : first ≤ last) (hl : last ≤ s.ncol) :
    get_row s r first last =
      some ((List.range' first (last - first)).map (fun c => get_body s r c),
            { s with cur := update_indices s r first last }) := by
  have hchk : check_rowargs s r first last = true := by
    simp [check_rowargs, hr, hfl, hl]
  simp only [get_row, hchk, if_true, Option.some.injEq, Prod.mk.injEq, and_true]
  rw [get_row_out]
  apply List.map_congr_left
  intro c hc
  rw [List.mem_range'_1] at hc
  obtain ⟨-, -, -, -, e⟩ := update_indices_spec h hcur r first last hl
  rw [get_body_eq (e c hc.1 (by omega))]

theorem run_get_row_spec {α : Type} (calls : List (Nat × Nat × Nat)) :
    ∀ (s : Reader α), WellFormed s → CursorOk s s.cur →
      (∀ q ∈ calls, q.1 < s.nrow ∧ q.2.1 ≤ q.2.2 ∧ q.2.2 ≤ s.ncol) →
      run_get_row s calls = some (calls.map (fun q =>
        (List.range' q.2.1 (q.2.2 - q.2.1)).map (fun c => get_body s q.1 c))) := by
  induction calls with
  | nil => intro s _ _ _; rfl
  | cons q rest ih =>
    intro s h hcur hq
    obtain ⟨r, first, last⟩ := q
    obtain ⟨hr, hfl, hl⟩ := hq (r, first, last) (List.mem_cons_self _ _)
    simp only [run_get_row, get_row_spec h hcur r first last hr hfl hl]
    have := ih { s with cur := update_indices s r first last } h
      (update_indices_ok h hcur r first last hl)
      (fun q' hq' => hq q' (List.mem_cons_of_mem _ hq'))
    rw [this]
    rfl

/-- C1: on a store with the data-model invariants, starting from the cursor the
constructor leaves (`currow = 0`, `indices` empty), every finite sequence of in-bounds
calls `get_row(r, out, first, last)`, with the rows in any order and any windows, returns
from every call, and each call leaves `out[c - first] = get(r, c)` for every column `c` of
`[first, last)`. -/
theorem get_row_matches_get {α : Type} (s : Reader α) (h : WellFormed s)
    (hrow : s.cur.currow = 0) (hind : s.cur.indices = [])
    (calls : List (Nat × Nat × Nat))
    (hcalls : ∀ q ∈ calls, q.1 < s.nrow ∧ q.2.1 ≤ q.2.2 ∧ q.2.2 ≤ s.ncol) :
    ∃ outs, run_get_row s calls = some outs ∧
      outs.map (fun out => out.map some) =
        calls.map (fun q => (List.range' q.2.1 (q.2.2 - q.2.1)).map (fun c => get s q.1 c)) := by
  have hcur : CursorOk s s.cur := by
    refine ⟨fun hlen c _ _ hc => ?_, fun _ => hrow⟩
    rw [hind] at hlen
    simp at hlen
    omega
  refine ⟨_, run_get_row_spec calls s h hcur hcalls, ?_⟩
  rw [List.map_map]
  apply List.map_congr_left
  intro q hq
  obtain ⟨hr, hfl, hl⟩ := hcalls q hq
  simp only [Function.comp, List.map_map]
  apply List.map_congr_left
  intro c hc
  rw [List.mem_range'_1] at hc
  rw [get_eq_some s q.1 c hr (by omega)]
  rfl

/-- C1, at the store `p = [0,2,2,4]`, `i = [0,3,1,3]`, `x = [10,40,20,50]` and the calls
`get_row(3, out, 0, 3)`, `get_row(1, out, 1, 3)`, `get_row(0, out, 0, 3)`. -/
theorem get_row_matches_get_witness :
    WellFormed (⟨4, 3, [0,3,1,3], [0,2,2,4], [10,40,20,50], 0, ⟨0, 0, 0, []⟩⟩ : Reader Int) ∧
    ∃ outs, run_get_row
        (⟨4, 3, [0,3,1,3], [0,2,2,4], [10,40,20,50], 0, ⟨0, 0, 0, []⟩⟩ : Reader Int)
        [(3, 0, 3), (1, 1, 3), (0, 0, 3)] = some outs ∧
      outs.map (fun out => out.map some) =
        [(3, 0, 3), (1, 1, 3), (0, 0, 3)].map (fun q =>
          (List.range' q.2.1 (q.2.2 - q.2.1)).map (fun c =>
            get (⟨4, 3, [0,3,1,3], [0,2,2,4], [10,40,20,50], 0, ⟨0, 0, 0, []⟩⟩ : Reader Int)
              q.1 c)) :=
  ⟨by decide,
   get_row_matches_get
    (⟨4, 3, [0,3,1,3], [0,2,2,4], [10,40,20,50], 0, ⟨0, 0, 0, []⟩⟩ : Reader Int)
    (by decide) rfl rfl [(3, 0, 3), (1, 1, 3), (0, 0, 3)] (by decide)⟩

/-- C2: the constructor accepts the 2x1 input `p = [0,3]`, `i = [0,0,1]`,
`x = [10,20,30]`; scanning its rows in increasing order with the window `[0, 1)`,
`get_row(0, out, 0, 1)` leaves `get(0, 0) = 10` in `out[0]`, `get_row(1, out, 0, 1)`
leaves the empty value in `out[0]`, and `get(1, 0)` is 30. -/
theorem get_row_scan_repeated_row (ncol0 : Nat) :
    ∃ s s0 s1,
      Csparse_reader 13 (0 : Int) ncol0 ⟨2, 1, [0,0,1], [0,3], [10,20,30], 13⟩ = .ok s ∧
      get_row s 0 0 1 = some ([10], s0) ∧ get s 0 0 = some 10 ∧
      get_row s0 1 0 1 = some ([0], s1) ∧ get s 1 0 = some 30 := by
  refine ⟨⟨2, 1, [0,0,1], [0,3], [10,20,30], 0, ⟨0, 0, ncol0, []⟩⟩,
    ⟨2, 1, [0,0,1], [0,3], [10,20,30], 0, ⟨0, 0, 1, [0]⟩⟩,
    ⟨2, 1, [0,0,1], [0,3], [10,20,30], 0, ⟨1, 0, 1, [1]⟩⟩, rfl, ?_, ?_, by decide, ?_⟩
  · by_cases h : ncol0 = 1
    · subst h; decide
    · have h' : ¬ (1 = ncol0) := fun e => h e.symm
      simp [get_row, check_rowargs, update_indices, forRange, get_row_body, rdAt, rdInt,
        rdVal, h']
  · show get (⟨2, 1, [0,0,1], [0,3], [10,20,30], 0, ⟨0, 0, 0, []⟩⟩ : Reader Int) 0 0 = some 10
    decide
  · show get (⟨2, 1, [0,0,1], [0,3], [10,20,30], 0, ⟨0, 0, 0, []⟩⟩ : Reader Int) 1 0 = some 30
    decide

/-- C10: on the store built from the 4x3 input `p = [0,2,2,4]`, `i = [0,3,1,3]`,
`x = [10,40,20,50]`, `get_col(2, out, 0, 4)` does not give `[0, 0, 0, 50]`. -/
theorem get_col_scenario_counterexample :
    ¬ (∃ ncol0 s,
        Csparse_reader 13 (0 : Int) ncol0 ⟨4, 3, [0,3,1,3], [0,2,2,4], [10,40,20,50], 13⟩
          = .ok s ∧ get s 3 0 = some 40 ∧ get s 1 1 = some 0 ∧
        (get_row s 3 0 3).map Prod.fst = some [40, 0, 50] ∧
        get_col s 2 0 4 = some [0, 0, 0, 50]) := by
  rintro ⟨ncol0, s, hs, -, -, -, hcol⟩
  have e : s = ⟨4, 3, [0,3,1,3], [0,2,2,4], [10,40,20,50], 0, ⟨0, 0, ncol0, []⟩⟩ := by
    have : Csparse_reader 13 (0 : Int) ncol0 ⟨4, 3, [0,3,1,3], [0,2,2,4], [10,40,20,50], 13⟩
        = .ok ⟨4, 3, [0,3,1,3], [0,2,2,4], [10,40,20,50], 0, ⟨0, 0, ncol0, []⟩⟩ := rfl
    rw [this] at hs
    exact (Except.ok.inj hs).symm
  subst e
  have e2 : get_col (⟨4, 3, [0,3,1,3], [0,2,2,4], [10,40,20,50], 0, ⟨0, 0, 0, []⟩⟩ :
      Reader Int) 2 0 4 = some [0, 20, 0, 50] := by decide
  have e3 : get_col (⟨4, 3, [0,3,1,3], [0,2,2,4], [10,40,20,50], 0, ⟨0, 0, ncol0, []⟩⟩ :
      Reader Int) 2 0 4 = some [0, 20, 0, 50] := e2
  rw [e3] at hcol
  revert hcol
  decide

/-- C10 as amended: for the 4x3 input `p = [0,2,2,4]`, `i = [0,3,1,3]`,
`x = [10,40,20,50]` construction succeeds and, on the constructed store, `get(3,0) = 40`,
`get(1,1) = 0`, `get_row(3, out, 0, 3)` gives `[40, 0, 50]` and `get_col(2, out, 0, 4)`
gives `[0, 20, 0, 50]`. -/
theorem scenario_4x3 (ncol0 : Nat) :
    ∃ s, Csparse_reader 13 (0 : Int) ncol0 ⟨4, 3, [0,3,1,3], [0,2,2,4], [10,40,20,50], 13⟩
        = .ok s ∧
      get s 3 0 = some 40 ∧ get s 1 1 = some 0 ∧
      (get_row s 3 0 3).map Prod.fst = some [40, 0, 50] ∧
      get_col s 2 0 4 = some [0, 20, 0, 50] := by
  refine ⟨⟨4, 3, [0,3,1,3], [0,2,2,4], [10,40,20,50], 0, ⟨0, 0, ncol0, []⟩⟩, rfl, ?_, ?_, ?_, ?_⟩
  · show get (⟨4, 3, [0,3,1,3], [0,2,2,4], [10,40,20,50], 0, ⟨0, 0, 0, []⟩⟩ : Reader Int) 3 0
      = some 40
    decide
  · show get (⟨4, 3, [0,3,1,3], [0,2,2,4], [10,40,20,50], 0, ⟨0, 0, 0, []⟩⟩ : Reader Int) 1 1
      = some 0
    decide
  · have hw : WellFormed (⟨4, 3, [0,3,1,3], [0,2,2,4], [10,40,20,50], 0, ⟨0, 0, ncol0, []⟩⟩ :
        Reader Int) :=
      (by decide : WellFormed (⟨4, 3, [0,3,1,3], [0,2,2,4], [10,40,20,50], 0, ⟨0, 0, 0, []⟩⟩ :
        Reader Int))
    have hc : CursorOk (⟨4, 3, [0,3,1,3], [0,2,2,4], [10,40,20,50], 0, ⟨0, 0, ncol0, []⟩⟩ :
        Reader Int) ⟨0, 0, ncol0, []⟩ := ⟨fun hlen => by simp at hlen, fun _ => rfl⟩
    rw [get_row_spec hw hc 3 0 3 (by show 3 < 4; decide) (by decide) (by show 3 ≤ 3; decide)]
    show some (List.map (fun c => get_body (⟨4, 3, [0,3,1,3], [0,2,2,4], [10,40,20,50], 0,
      ⟨0, 0, 0, []⟩⟩ : Reader Int) 3 c) (List.range' 0 (3 - 0))) = some [40, 0, 50]
    decide
  · show get_col (⟨4, 3, [0,3,1,3], [0,2,2,4], [10,40,20,50], 0, ⟨0, 0, 0, []⟩⟩ : Reader Int)
      2 0 4 = some [0, 20, 0, 50]
    decide

/-! ## Column access -/

theorem int_of_size_eq (n : Nat) (h : (n : Int) < 2 ^ 31) : int_of_size n = (n : Int) := by
  unfold int_of_size
  have e : (n : Int) % 2 ^ 32 = (n : Int) := by omega
  rw [e, if_pos h]

theorem size_of_diff_eq (d : Int) (h : 0 ≤ d) : size_of_diff d = d.toNat := by
  unfold size_of_diff
  rw [if_neg (by omega)]

theorem IsCursor.mono {α : Type} {s : Reader α} {c r r' : Nat} {a b : Int}
    (ha : IsCursor s c r a) (hb : IsCursor s c r' b) (hr : r ≤ r') : a ≤ b := by
  obtain ⟨a1, a2, a3, a4⟩ := ha
  obtain ⟨b1, b2, b3, b4⟩ := hb
  by_contra hcon
  have e1 := a3 b b1 (by omega)
  have e2 := b4 b (le_refl _) (by omega)
  omega

/-- The sub-run `get_col` and `get_const_col_nonzero` select: it starts at the cursor
position of the column for `first`, ends at the one for `last`, and the value iterator
starts at the same offset as the index iterator. -/
theorem col_run_spec {α : Type} {s : Reader α} (h : WellFormed s) {c first last : Nat}
    (hc : c < s.ncol) (hfl : first ≤ last) :
    ∃ a b, col_run s c first last = (a, b, a) ∧ IsCursor s c first a ∧
      IsCursor s c last b := by
  obtain ⟨a, ha⟩ := h.exists_cursor c first hc
  simp only [col_run]
  by_cases h1 : first ≠ 0
  · rw [if_pos h1, lower_bound_eq s.i _ _ _ a ha]
    simp only
    by_cases h2 : last ≠ s.nrow
    · rw [if_pos h2]
      have := ha.jump_forward h hc hfl
      unfold jump_forward at this
      exact ⟨a, _, by rw [show rdAt s.p c + (a - rdAt s.p c) = a by omega], ha, this⟩
    · rw [if_neg h2]
      push_neg at h2
      rw [h2]
      exact ⟨a, _, by rw [show rdAt s.p c + (a - rdAt s.p c) = a by omega], ha,
        h.cursor_nrow c hc⟩
  · rw [if_neg h1]
    push_neg at h1
    subst h1
    have e0 := ha.unique (h.cursor_zero c hc)
    subst e0
    simp only
    by_cases h2 : last ≠ s.nrow
    · rw [if_pos h2]
      have := ha.jump_forward h hc hfl
      unfold jump_forward at this
      exact ⟨_, _, rfl, ha, this⟩
    · rw [if_neg h2]
      push_neg at h2
      rw [h2]
      exact ⟨_, _, rfl, ha, h.cursor_nrow c hc⟩

theorem length_wrAt {β : Type} (out : List β) (k : Int) (v : β) :
    (wrAt out k v).length = out.length := by
  unfold wrAt
  split_ifs
  · rw [List.length_set]
  · rfl

theorem getD_wrAt {β : Type} (out : List β) (k : Int) (v d : β) (j : Nat)
    (hj : j < out.length) :
    (wrAt out k v).getD j d = if k = (j : Int) then v else out.getD j d := by
  unfold wrAt
  by_cases h0 : 0 ≤ k
  · rw [if_pos h0]
    simp only [List.getD_eq_getElem?_getD, List.getElem?_set]
    by_cases e : k = (j : Int)
    · have : k.toNat = j := by omega
      rw [if_pos this, if_pos (by omega), if_pos e]
      rfl
    · have : ¬ k.toNat = j := by omega
      rw [if_neg this, if_neg e]
  · rw [if_neg h0, if_neg (by omega)]

/-- The scatter loop of `get_col` on a run `[t, b)` with distinct row indices: it ends,
keeps the length of the buffer, leaves `x[k]` at offset `i[k] - int(first)` for every
entry `k` of the run, and leaves every other offset as it was. -/
theorem get_col_loop_spec {α : Type} (s : Reader α) (first : Nat) (b : Int) :
    ∀ (fuel : Nat) (t : Int) (out : List α), t ≤ b → fuel = (b - t).toNat →
      (∀ k k', t ≤ k → k < k' → k' < b → rdInt s.i k ≠ rdInt s.i k') →
      ∃ out', get_col_loop s first b fuel t t out = some out' ∧ out'.length = out.length ∧
        ∀ j, j < out.length →
          (∀ k, t ≤ k → k < b → rdInt s.i k - int_of_size first = (j : Int) →
            out'.getD j s.empty = rdVal s.x s.empty k) ∧
          ((∀ k, t ≤ k → k < b → rdInt s.i k - int_of_size first ≠ (j : Int)) →
            out'.getD j s.empty = out.getD j s.empty) := by
  intro fuel
  induction fuel with
  | zero =>
    intro t out htb hf hinj
    have e : t = b := by omega
    subst e
    refine ⟨out, by simp [get_col_loop], rfl, fun j hj => ⟨fun k h1 h2 => by omega, fun _ => rfl⟩⟩
  | succ fuel ih =>
    intro t out htb hf hinj
    have hne : t ≠ b := by omega
    rw [get_col_loop, if_neg hne]
    obtain ⟨out', e1, e2, e3⟩ := ih (t + 1)
      (wrAt out (rdInt s.i t - int_of_size first) (rdVal s.x s.empty t)) (by omega) (by omega)
      (fun k k' h1 h2 h3 => hinj k k' (by omega) h2 h3)
    rw [length_wrAt] at e2 e3
    refine ⟨out', e1, e2, fun j hj => ⟨fun k h1 h2 hk => ?_, fun hno => ?_⟩⟩
    · by_cases e : k = t
      · subst e
        rw [(e3 j hj).2 (fun k' h1' h2' hk' => hinj k k' (le_refl _) (by omega) h2'
          (by omega)), getD_wrAt _ _ _ _ _ hj, if_pos hk]
      · exact (e3 j hj).1 k (by omega) h2 hk
    · rw [(e3 j hj).2 (fun k h1 h2 => hno k (by omega) h2), getD_wrAt _ _ _ _ _ hj,
        if_neg (hno t (le_refl _) (by omega))]

/-- The buffer `get_col` writes is `get_body` at the rows of the range, in order. -/
theorem get_col_eq {α : Type} {s : Reader α} (h : WellFormed s)
    (hint : ∀ k, k < s.i.length → rdAt s.i k < 2 ^ 31) {c first last : Nat}
    (hc : c < s.ncol) (hfl : first ≤ last) (hl : last ≤ s.nrow) :
    get_col s c first last =
      some ((List.range (last - first)).map (fun k => get_body s (first + k) c)) := by
  have hchk : check_colargs s c first last = true := by
    simp [check_colargs, hc, hfl, hl]
  obtain ⟨a, b, hrun, ha, hb⟩ := col_run_spec h hc hfl
  have hab := ha.mono hb hfl
  have hp := h.p_nonneg c (by omega)
  have hn := h.p_le_nnz (c + 1) (by omega)
  obtain ⟨out', e1, e2, e3⟩ := get_col_loop_spec s first b (b - a).toNat a
    (List.replicate (last - first) s.empty) hab rfl
    (fun k k' h1 h2 h3 => ne_of_lt (h.i_lt c hc k k' (le_trans ha.1 h1) h2
      (lt_of_lt_of_le h3 hb.2.1)))
  simp only [get_col, hchk, if_true, hrun]
  rw [e1]
  rw [List.length_replicate] at e2 e3
  have hbig : ∀ k : Int, a ≤ k → k < b → int_of_size first = (first : Int) := by
    intro k h1 h2
    have g1 := ha.2.2.2 k h1 (lt_of_lt_of_le h2 hb.2.1)
    have g2 := hint k.toNat (by have := hb.2.1; have := ha.1; omega)
    rw [← rdInt_eq_rdAt] at g2
    exact int_of_size_eq first (by omega)
  congr 1
  apply List.ext_getElem
  · rw [e2]; simp
  · intro j hj1 hj2
    rw [e2] at hj1
    rw [← List.getD_eq_getElem out' s.empty (by rw [e2]; exact hj1)]
    simp only [List.getElem_map, List.getElem_range]
    by_cases hex : ∃ k : Int, rdAt s.p c ≤ k ∧ k < rdAt s.p (c + 1) ∧
        rdInt s.i k = ((first + j : Nat) : Int)
    · obtain ⟨k, k1, k2, k3⟩ := hex
      have ka : a ≤ k := by
        by_contra hcon
        have := ha.2.2.1 k k1 (by omega)
        push_cast at k3; omega
      have kb : k < b := by
        by_contra hcon
        have := hb.2.2.2 k (by omega) k2
        push_cast at k3; omega
      rw [get_body_found h hc k k1 k2 k3]
      apply (e3 j hj1).1 k ka kb
      rw [hbig k ka kb, k3]
      push_cast; omega
    · rw [get_body_absent h hc (fun k k1 k2 k3 => hex ⟨k, k1, k2, k3⟩)]
      rw [(e3 j hj1).2]
      · simp [List.getD_eq_getElem?_getD, hj1]
      · intro k k1 k2 k3
        apply hex
        refine ⟨k, le_trans ha.1 k1, lt_of_lt_of_le k2 hb.2.1, ?_⟩
        rw [hbig k k1 k2] at k3
        push_cast; omega

theorem drop_take_range_map {β : Type} (f : Nat → β) (n first last : Nat) (hl : last ≤ n) :
    (((List.range n).map f).drop first).take (last - first) =
      (List.range (last - first)).map (fun k => f (first + k)) := by
  apply List.ext_getElem
  · simp; omega
  · intro j hj1 hj2
    simp

/-- C8: on a store with the data-model invariants (its row indices being C `int`s),
for every column `c < ncol` and every `first <= last <= nrow`, `get_col(c, out, first, last)`
returns and leaves `out[k] = get(first + k, c)` for every `k` in `[0, last - first)`; the
buffer is the restriction to `[first, last)` of the one written for the range `[0, nrow)`. -/
theorem get_col_spec {α : Type} (s : Reader α) (h : WellFormed s)
    (hint : ∀ k, k < s.i.length → rdAt s.i k < 2 ^ 31) (c first last : Nat)
    (hc : c < s.ncol) (hfl : first ≤ last) (hl : last ≤ s.nrow) :
    ∃ out, get_col s c first last = some out ∧
      out.map some = (List.range (last - first)).map (fun k => get s (first + k) c) ∧
      ∃ full, get_col s c 0 s.nrow = some full ∧
        full.map some = (List.range s.nrow).map (fun r => get s r c) ∧
        out = (full.drop first).take (last - first) := by
  refine ⟨_, get_col_eq h hint hc hfl hl, ?_, _,
    get_col_eq h hint hc (Nat.zero_le _) (le_refl _), ?_, ?_⟩
  · rw [List.map_map]
    apply List.map_congr_left
    intro k hk
    rw [List.mem_range] at hk
    rw [get_eq_some s (first + k) c (by omega) hc]
    rfl
  · rw [List.map_map]
    apply List.map_congr_left
    intro k hk
    rw [List.mem_range] at hk
    simp only [Function.comp, Nat.zero_add]
    rw [get_eq_some s k c (by omega) hc]
  · rw [drop_take_range_map _ _ _ _ (by omega)]
    simp

/-- C8, at the store `p = [0,2,2,4]`, `i = [0,3,1,3]`, `x = [10,40,20,50]`, column 2 and
rows `[1, 4)`. -/
theorem get_col_spec_witness :
    WellFormed (⟨4, 3, [0,3,1,3], [0,2,2,4], [10,40,20,50], 0, ⟨0, 0, 0, []⟩⟩ : Reader Int) ∧
    ∃ out, get_col (⟨4, 3, [0,3,1,3], [0,2,2,4], [10,40,20,50], 0, ⟨0, 0, 0, []⟩⟩ : Reader Int)
        2 1 4 = some out ∧
      out.map some = (List.range (4 - 1)).map (fun k =>
        get (⟨4, 3, [0,3,1,3], [0,2,2,4], [10,40,20,50], 0, ⟨0, 0, 0, []⟩⟩ : Reader Int)
          (1 + k) 2) :=
  ⟨by decide, by
    obtain ⟨out, h1, h2, -⟩ := get_col_spec
      (⟨4, 3, [0,3,1,3], [0,2,2,4], [10,40,20,50], 0, ⟨0, 0, 0, []⟩⟩ : Reader Int)
      (by decide) (by decide) 2 1 4 (by decide) (by decide) (by decide)
    exact ⟨out, h1, h2⟩⟩

/-- The scatter loop of `get_col` as a fold over the offsets of the run. -/
theorem get_col_loop_eq_foldl {α : Type} (s : Reader α) (first : Nat) (b : Int) :
    ∀ (fuel : Nat) (t : Int) (out : List α), t ≤ b → fuel = (b - t).toNat →
      get_col_loop s first b fuel t t out =
        some ((List.range fuel).foldl
          (fun (out : List α) (j : Nat) =>
            wrAt out (rdInt s.i (t + (j : Int)) - int_of_size first)
              (rdVal s.x s.empty (t + (j : Int)))) out) := by
  intro fuel
  induction fuel with
  | zero =>
    intro t out htb hf
    have e : t = b := by omega
    subst e
    simp [get_col_loop]
  | succ fuel ih =>
    intro t out htb hf
    have hne : t ≠ b := by omega
    rw [get_col_loop, if_neg hne, ih (t + 1) _ (by omega) (by omega),
      List.range_succ_eq_map, List.foldl_cons, List.foldl_map]
    have e : ∀ j : Nat, t + ((j + 1 : Nat) : Int) = t + 1 + (j : Int) := by
      intro j; push_cast; ring
    simp only [Nat.succ_eq_add_one, e, Nat.cast_zero, add_zero]

/-- C9: on a store with the data-model invariants (its row indices being C `int`s), for
every column `c < ncol` and every `first <= last <= nrow`, `get_const_col_nonzero` returns
a count `n` and one start offset `st` for both `index` and `val`, with
`p[c] <= st`, `st + n <= p[c+1]`, the offsets `st, ..., st + n - 1` being exactly the
offsets `k` of the run of `c` with `first <= i[k] < last`; scattering `x[k]` to position
`i[k] - first` over an empty-filled buffer gives what `get_col(c, out, first, last)`
writes. -/
theorem get_const_col_nonzero_spec {α : Type} (s : Reader α) (h : WellFormed s)
    (hint : ∀ k, k < s.i.length → rdAt s.i k < 2 ^ 31) (c first last : Nat)
    (hc : c < s.ncol) (hfl : first ≤ last) (hl : last ≤ s.nrow) :
    ∃ (n : Nat) (st : Int), get_const_col_nonzero s c first last = some (n, st, st) ∧
      rdAt s.p c ≤ st ∧ st + (n : Int) ≤ rdAt s.p (c + 1) ∧
      (∀ k : Int, (st ≤ k ∧ k < st + (n : Int)) ↔
        (rdAt s.p c ≤ k ∧ k < rdAt s.p (c + 1) ∧
          (first : Int) ≤ rdInt s.i k ∧ rdInt s.i k < (last : Int))) ∧
      get_col s c first last = some (scatter s first st n (last - first)) := by
  have hchk : check_colargs s c first last = true := by
    simp [check_colargs, hc, hfl, hl]
  obtain ⟨a, b, hrun, ha, hb⟩ := col_run_spec h hc hfl
  have hab := ha.mono hb hfl
  have hp := h.p_nonneg c (by omega)
  have hn := h.p_le_nnz (c + 1) (by omega)
  obtain ⟨a1, a2, a3, a4⟩ := ha
  obtain ⟨b1, b2, b3, b4⟩ := hb
  have en : ((b - a).toNat : Int) = b - a := by omega
  refine ⟨(b - a).toNat, a, ?_, a1, by omega, fun k => ⟨fun hk => ?_, fun hk => ?_⟩, ?_⟩
  · simp only [get_const_col_nonzero, hchk, if_true, hrun]
    rw [size_of_diff_eq _ (by omega)]
  · exact ⟨by omega, by omega, a4 k hk.1 (by omega), b3 k (by omega) (by omega)⟩
  · obtain ⟨k1, k2, k3, k4⟩ := hk
    constructor
    · by_contra hcon
      have := a3 k k1 (by omega)
      omega
    · by_contra hcon
      have := b4 k (by omega) k2
      omega
  · simp only [get_col, hchk, if_true, hrun]
    rw [get_col_loop_eq_foldl s first b (b - a).toNat a _ hab rfl]
    by_cases e : a = b
    · subst e
      simp [scatter]
    · have g1 := a4 a (le_refl _) (by omega)
      have g2 := hint a.toNat (by omega)
      rw [← rdInt_eq_rdAt] at g2
      rw [int_of_size_eq first (by omega)]
      rfl

/-- C9, at the store `p = [0,2,2,4]`, `i = [0,3,1,3]`, `x = [10,40,20,50]`, column 0 and
rows `[1, 4)`: the run is the single offset 1. -/
theorem get_const_col_nonzero_spec_witness :
    WellFormed (⟨4, 3, [0,3,1,3], [0,2,2,4], [10,40,20,50], 0, ⟨0, 0, 0, []⟩⟩ : Reader Int) ∧
    ∃ (n : Nat) (st : Int),
      get_const_col_nonzero
        (⟨4, 3, [0,3,1,3], [0,2,2,4], [10,40,20,50], 0, ⟨0, 0, 0, []⟩⟩ : Reader Int) 0 1 4
        = some (n, st, st) ∧
      get_col (⟨4, 3, [0,3,1,3], [0,2,2,4], [10,40,20,50], 0, ⟨0, 0, 0, []⟩⟩ : Reader Int)
        0 1 4 = some (scatter
          (⟨4, 3, [0,3,1,3], [0,2,2,4], [10,40,20,50], 0, ⟨0, 0, 0, []⟩⟩ : Reader Int)
          1 st n (4 - 1)) :=
  ⟨by decide, by
    obtain ⟨n, st, h1, -, -, -, h2⟩ := get_const_col_nonzero_spec
      (⟨4, 3, [0,3,1,3], [0,2,2,4], [10,40,20,50], 0, ⟨0, 0, 0, []⟩⟩ : Reader Int)
      (by decide) (by decide) 0 1 4 (by decide) (by decide) (by decide)
    exact ⟨n, st, h1, h2⟩⟩

theorem check_p_loop_eq_some (p : List Int) (n px : Nat) (e : CtorError)
    (h : check_p_loop p px n = some e) : e.kind = .MalformedPointer := by
  induction n generalizing px with
  | zero => simp [check_p_loop] at h
  | succ n ih =>
    simp only [check_p_loop] at h
    split_ifs at h with h1 h2
    · simp only [Option.some.injEq] at h; subst h; rfl
    · simp only [Option.some.injEq] at h; subst h; rfl
    · exact ih _ h

theorem check_i_range_eq_some (nrow : Nat) (l : List Int) (e : CtorError)
    (h : check_i_range nrow l = some e) : e = .iRange := by
  induction l with
  | nil => simp [check_i_range] at h
  | cons a l ih =>
    simp only [check_i_range] at h
    split_ifs at h with h1
    · simpa using h.symm
    · exact ih h

/-- The constructor reports the kind of the first failing condition of section 4.1 on
every input in which no column run holds the same row index at two adjacent offsets. -/
theorem ctor_kind_eq_spec_validate {α : Type} (sexp : Nat) (empty : α) (ncol0 : Nat)
    (inc : Incoming α)
    (hne : ∀ c, c < inc.ncol → ∀ k, k < inc.i.length →
      rdAt inc.p c ≤ (k : Int) → (k : Int) + 1 < rdAt inc.p (c + 1) →
        rdAt inc.i k ≠ rdAt inc.i (k + 1)) :
    ctor_kind sexp empty ncol0 inc = spec_validate sexp inc := by
  have hp := check_p_loop_eq_none_iff inc.p inc.ncol 0
  have hi := check_i_loop_eq_none_iff inc.i inc.p inc.ncol 0
  have hr := check_i_range_eq_none_iff inc.nrow inc.i
  simp only [Nat.zero_le, zero_add, true_implies] at hp hi
  simp only [ctor_kind, Csparse_reader, spec_validate]
  by_cases h1 : inc.xtype ≠ sexp
  · rw [if_pos h1, if_pos h1]; rfl
  rw [if_neg h1, if_neg h1]
  by_cases h2 : inc.x.length ≠ inc.i.length
  · rw [if_pos h2, if_pos (Ne.symm h2)]; rfl
  rw [if_neg h2, if_neg (fun h => h2 (Ne.symm h))]
  by_cases h3 : inc.ncol + 1 ≠ inc.p.length
  · rw [if_pos h3, if_pos (Ne.symm h3)]; rfl
  rw [if_neg h3, if_neg (fun h => h3 (Ne.symm h))]
  by_cases h4 : rdAt inc.p 0 ≠ 0
  · rw [if_pos h4, if_pos h4]; rfl
  rw [if_neg h4, if_neg h4]
  by_cases h5 : rdAt inc.p inc.ncol ≠ (inc.x.length : Int)
  · rw [if_pos h5, if_pos h5]; rfl
  rw [if_neg h5, if_neg h5]
  push_neg at h2 h4 h5
  cases h6 : check_p_loop inc.p 0 inc.ncol with
  | some e =>
    have : ¬ (∀ c, c < inc.ncol → 0 ≤ rdAt inc.p c ∧ rdAt inc.p c ≤ rdAt inc.p (c + 1)) := by
      intro hcon
      rw [hp.mpr hcon] at h6
      simp at h6
    rw [if_pos this]
    simp only [check_p_loop_eq_some _ _ _ _ h6]
  | none =>
    have h6' := hp.mp h6
    rw [if_neg (not_not.mpr h6')]
    have hle : ∀ c, c < inc.ncol → rdAt inc.p (c + 1) ≤ (inc.i.length : Int) := by
      intro c hc
      have := rdAt_mono inc.p inc.ncol (fun c hc => (h6' c hc).2) inc.ncol (c + 1) (by omega)
        (le_refl _)
      rw [h5, h2] at this
      exact this
    have hiff : (∀ c, c < inc.ncol → ∀ k : Int, rdAt inc.p c ≤ k → k + 1 < rdAt inc.p (c + 1) →
          rdInt inc.i k ≤ rdInt inc.i (k + 1)) ↔
        (∀ c, c < inc.ncol → ∀ k, k < inc.i.length →
          rdAt inc.p c ≤ (k : Int) → (k : Int) + 1 < rdAt inc.p (c + 1) →
            rdAt inc.i k < rdAt inc.i (k + 1)) := by
      constructor
      · intro hcode c hc k hk k1 k2
        have a := hcode c hc (k : Int) k1 k2
        have b := hne c hc k hk k1 k2
        rw [rdInt_natCast, show ((k : Int) + 1) = ((k + 1 : Nat) : Int) by push_cast; rfl,
          rdInt_natCast] at a
        omega
      · intro hspec c hc k k1 k2
        have g0 := (h6' c hc).1
        have g1 := hle c hc
        have a := hspec c hc k.toNat (by omega) (by omega) (by omega)
        rw [rdInt_eq_rdAt, rdInt_eq_rdAt, show (k + 1).toNat = k.toNat + 1 by omega]
        omega
    cases h7 : check_i_loop inc.i inc.p 0 inc.ncol with
    | some e =>
      have : ¬ (∀ c, c < inc.ncol → ∀ k, k < inc.i.length →
          rdAt inc.p c ≤ (k : Int) → (k : Int) + 1 < rdAt inc.p (c + 1) →
            rdAt inc.i k < rdAt inc.i (k + 1)) := by
        intro hcon
        rw [hi.mpr (hiff.mpr hcon)] at h7
        simp at h7
      rw [if_pos this]
      simp only [check_i_loop_eq_some _ _ _ _ _ h7]
      rfl
    | none =>
      rw [if_neg (not_not.mpr (hiff.mp (hi.mp h7)))]
      cases h8 : check_i_range inc.nrow inc.i with
      | some e =>
        have : ¬ (∀ k, k < inc.i.length → 0 ≤ rdAt inc.i k ∧ rdAt inc.i k < (inc.nrow : Int)) := by
          intro hcon
          rw [hr.mpr hcon] at h8
          simp at h8
        rw [if_pos this]
        simp only [check_i_range_eq_some _ _ _ h8]
        rfl
      | none =>
        rw [if_neg (not_not.mpr (hr.mp h8))]

/-! ## The pointer scan and the bounds of the constructor's reads -/

theorem check_p_loop_ne_pNegative (p : List Int) :
    ∀ (n px : Nat), 0 ≤ rdAt p px → check_p_loop p px n ≠ some .pNegative := by
  intro n
  induction n with
  | zero => intro px _; simp [check_p_loop]
  | succ n ih =>
    intro px h0
    simp only [check_p_loop]
    rw [if_neg (by omega)]
    split_ifs with h1
    · simp
    · exact ih (px + 1) (by omega)

theorem check_p_loop_first_descent (p : List Int) :
    ∀ (n px c : Nat), px ≤ c → c < px + n →
      (∀ c', px ≤ c' → c' < c → 0 ≤ rdAt p c' ∧ rdAt p c' ≤ rdAt p (c' + 1)) →
      0 ≤ rdAt p c → rdAt p c > rdAt p (c + 1) → check_p_loop p px n = some .pUnsorted := by
  intro n
  induction n with
  | zero => intro px c h1 h2; omega
  | succ n ih =>
    intro px c h1 h2 hpre h0 hdesc
    simp only [check_p_loop]
    by_cases e : c = px
    · subst e
      rw [if_neg (by omega), if_pos hdesc]
    · have := hpre px (le_refl _) (by omega)
      rw [if_neg (by omega), if_neg (by omega)]
      exact ih (px + 1) c (by omega) (by omega) (fun c' a b => hpre c' (by omega) b) h0 hdesc

/-- C18: once `p[0] = 0` holds, the pointer scan never throws "non-negative values"; for
a `p` of length `ncol + 1` with `p[0] = 0` and a negative element `p[j]`, the scan throws
"sorted" at a column `c < j`: the rounds before `c` pass, `p[c]` is not negative,
`p[c] > p[c+1]`, and both elements compared are elements of `p`. -/
theorem pointer_scan_negative_unreachable (p : List Int) (ncol : Nat)
    (hlen : p.length = ncol + 1) (h0 : rdAt p 0 = 0) :
    check_p_loop p 0 ncol ≠ some .pNegative ∧
    ∀ j, j ≤ ncol → rdAt p j < 0 →
      check_p_loop p 0 ncol = some .pUnsorted ∧
      ∃ c, c < j ∧ c + 1 < p.length ∧
        (∀ c', c' < c → 0 ≤ rdAt p c' ∧ rdAt p c' ≤ rdAt p (c' + 1)) ∧
        0 ≤ rdAt p c ∧ rdAt p c > rdAt p (c + 1) := by
  refine ⟨check_p_loop_ne_pNegative p ncol 0 (by omega), fun j hj hneg => ?_⟩
  have hex : ∃ c, c < j ∧ ¬ (0 ≤ rdAt p c ∧ rdAt p c ≤ rdAt p (c + 1)) := by
    by_contra hcon
    push_neg at hcon
    have hall : ∀ c, c ≤ j → 0 ≤ rdAt p c := by
      intro c
      induction c with
      | zero => intro _; omega
      | succ c ih =>
        intro hc
        have a := ih (by omega)
        have b := hcon c (by omega)
        omega
    have := hall j (le_refl _)
    omega
  classical
  have hc := Nat.find_spec hex
  have hmin := fun c' (h : c' < Nat.find hex) => Nat.find_min hex h
  obtain ⟨hcj, hfail⟩ := hc
  have hpre : ∀ c', c' < Nat.find hex → 0 ≤ rdAt p c' ∧ rdAt p c' ≤ rdAt p (c' + 1) := by
    intro c' h
    have := hmin c' h
    push_neg at this
    exact this (by omega)
  have hnn : 0 ≤ rdAt p (Nat.find hex) := by
    rcases Nat.eq_zero_or_pos (Nat.find hex) with e | e
    · rw [e]; omega
    · have := hpre (Nat.find hex - 1) (by omega)
      have e2 : Nat.find hex - 1 + 1 = Nat.find hex := by omega
      rw [e2] at this
      omega
  have hdesc : rdAt p (Nat.find hex) > rdAt p (Nat.find hex + 1) := by
    by_contra hcon
    exact hfail ⟨hnn, by omega⟩
  exact ⟨check_p_loop_first_descent p ncol 0 (Nat.find hex) (Nat.zero_le _) (by omega)
    (fun c' _ h => hpre c' h) hnn hdesc, Nat.find hex, hcj, by omega, hpre, hnn, hdesc⟩

/-- C18, at `p = [0, 2, -1, 3]` with `ncol = 3` and the negative element `p[2]`. -/
theorem pointer_scan_negative_unreachable_witness :
    rdAt [0, 2, -1, 3] 2 < 0 ∧ check_p_loop [0, 2, -1, 3] 0 3 = some .pUnsorted :=
  ⟨by decide,
   ((pointer_scan_negative_unreachable [0, 2, -1, 3] 3 rfl (by decide)).2 2 (by decide)
    (by decide)).1⟩

theorem rdAtChk_eq (v : List Int) (k : Nat) (h : k < v.length) :
    rdAtChk v k = some (rdAt v k) := by
  simp [rdAtChk, rdAt, List.getD_eq_getElem?_getD, List.getElem?_eq_getElem h]

theorem rdIntChk_eq (v : List Int) (k : Int) (h0 : 0 ≤ k) (h : k < (v.length : Int)) :
    rdIntChk v k = some (rdInt v k) := by
  have hk : k.toNat < v.length := by omega
  simp [rdIntChk, rdInt, h0, List.getD_eq_getElem?_getD, List.getElem?_eq_getElem hk]

theorem check_p_loop_chk_eq (p : List Int) :
    ∀ (n px : Nat), px + n < p.length →
      check_p_loop_chk p px n = some (check_p_loop p px n) := by
  intro n
  induction n with
  | zero => intro px _; rfl
  | succ n ih =>
    intro px h
    simp only [check_p_loop_chk, check_p_loop]
    rw [rdAtChk_eq p px (by omega), rdAtChk_eq p (px + 1) (by omega)]
    simp only
    split_ifs
    · rfl
    · rfl
    · exact ih (px + 1) (by omega)

theorem check_i_run_chk_eq (i : List Int) :
    ∀ (n : Nat) (ix : Int), (0 < n → 0 ≤ ix ∧ ix + (n : Int) < (i.length : Int)) →
      check_i_run_chk i n ix = some (check_i_run i n ix) := by
  intro n
  induction n with
  | zero => intro ix _; rfl
  | succ n ih =>
    intro ix h
    obtain ⟨h0, h1⟩ := h (Nat.succ_pos n)
    push_cast at h1
    simp only [check_i_run_chk, check_i_run]
    rw [rdIntChk_eq i ix h0 (by omega), rdIntChk_eq i (ix + 1) (by omega) (by omega)]
    simp only
    split_ifs
    · rfl
    · exact ih (ix + 1) (fun _ => ⟨by omega, by omega⟩)

theorem check_i_loop_chk_eq (i p : List Int) (ncol : Nat) (hlen : p.length = ncol + 1)
    (hlast : rdAt p ncol = (i.length : Int))
    (hp : ∀ c, c < ncol → 0 ≤ rdAt p c ∧ rdAt p c ≤ rdAt p (c + 1)) :
    ∀ (n px : Nat), px + n ≤ ncol →
      check_i_loop_chk i p px n = some (check_i_loop i p px n) := by
  intro n
  induction n with
  | zero => intro px _; rfl
  | succ n ih =>
    intro px h
    have hle := rdAt_mono p ncol (fun c hc => (hp c hc).2) ncol (px + 1) (by omega) (le_refl _)
    have hnn := (hp px (by omega)).1
    simp only [check_i_loop_chk, check_i_loop]
    rw [rdAtChk_eq p px (by omega), rdAtChk_eq p (px + 1) (by omega)]
    simp only
    rw [check_i_run_chk_eq i _ _ (fun hpos => ⟨hnn, by omega⟩)]
    cases check_i_run i (rdAt p (px + 1) - 1 - rdAt p px).toNat (rdAt p px) with
    | some e => rfl
    | none => exact ih (px + 1) (by omega)

/-- C16: on every input, also with `nrow = 0` or `ncol = 0`, the constructor with all its
indexed reads of `p` and `i` bounds-checked never meets an out-of-bounds read and does what
the constructor does: `p[0]` and `p[ncol]` are read after `len(p) = ncol + 1` is known, the
pointer scan reads inside `p`, the column scan reads `i[k]` with `0 <= k < len(i)`.  The
input `ncol = 0`, `p = [0]`, `i = []`, `x = []` is accepted, for every `nrow`. -/
theorem ctor_reads_in_bounds {α : Type} (sexp : Nat) (empty : α) (ncol0 : Nat) :
    (∀ inc : Incoming α,
      Csparse_reader_chk sexp empty ncol0 inc = some (Csparse_reader sexp empty ncol0 inc)) ∧
    ∀ nrow : Nat, Csparse_reader sexp empty ncol0 ⟨nrow, 0, [], [0], [], sexp⟩ =
      .ok ⟨nrow, 0, [], [0], [], empty, ⟨0, 0, ncol0, []⟩⟩ := by
  refine ⟨fun inc => ?_, fun nrow => ?_⟩
  · simp only [Csparse_reader_chk, Csparse_reader]
    by_cases h1 : inc.xtype ≠ sexp
    · rw [if_pos h1, if_pos h1]
    rw [if_neg h1, if_neg h1]
    by_cases h2 : inc.x.length ≠ inc.i.length
    · rw [if_pos h2, if_pos h2]
    rw [if_neg h2, if_neg h2]
    by_cases h3 : inc.ncol + 1 ≠ inc.p.length
    · rw [if_pos h3, if_pos h3]
    rw [if_neg h3, if_neg h3]
    push_neg at h2 h3
    rw [rdAtChk_eq inc.p 0 (by omega), rdAtChk_eq inc.p inc.ncol (by omega)]
    simp only
    by_cases h4 : rdAt inc.p 0 ≠ 0
    · rw [if_pos h4, if_pos h4]
    rw [if_neg h4, if_neg h4]
    by_cases h5 : rdAt inc.p inc.ncol ≠ (inc.x.length : Int)
    · rw [if_pos h5, if_pos h5]
    rw [if_neg h5, if_neg h5]
    push_neg at h5
    rw [check_p_loop_chk_eq inc.p inc.ncol 0 (by omega)]
    cases h6 : check_p_loop inc.p 0 inc.ncol with
    | some e => rfl
    | none =>
      simp only
      have hp := (check_p_loop_eq_none_iff inc.p inc.ncol 0).mp h6
      rw [check_i_loop_chk_eq inc.i inc.p inc.ncol h3.symm (by rw [h5, h2])
        (fun c hc => hp c (Nat.zero_le _) (by omega)) inc.ncol 0 (by omega)]
      cases check_i_loop inc.i inc.p 0 inc.ncol with
      | some e => rfl
      | none =>
        simp only
        cases check_i_range inc.nrow inc.i with
        | some e => rfl
        | none => rfl
  · simp [Csparse_reader, rdAt, check_p_loop, check_i_loop, check_i_range]

/-- The checked reads do fail outside the vector: the pointer scan of `ncol = 1` on a `p`
with one element cannot read `p[1]`. -/
theorem check_p_loop_chk_short : check_p_loop_chk [0] 0 1 = none := by decide

/-! ## The skipped searches of `get_col` -/

theorem col_run_eq_col_run_search {α : Type} {s : Reader α} (h : WellFormed s) {c : Nat}
    (hc : c < s.ncol) (first last : Nat) :
    col_run s c first last = col_run_search s c first last := by
  have hz := h.cursor_zero c hc
  have hn := h.cursor_nrow c hc
  obtain ⟨a, ha⟩ := h.exists_cursor c first hc
  have ea := lower_bound_eq _ _ _ _ _ ha
  have hend : lower_bound s.i a (rdAt s.p (c + 1)) (s.nrow : Int) = rdAt s.p (c + 1) :=
    lower_bound_eq _ _ _ _ _ ⟨ha.2.1, le_refl _,
      fun j h1 h2 => hn.2.2.1 j (le_trans ha.1 h1) h2, fun j h1 h2 => by omega⟩
  simp only [col_run, col_run_search]
  rw [ea]
  by_cases h1 : first ≠ 0
  · rw [if_pos h1]
    simp only
    by_cases h2 : last ≠ s.nrow
    · rw [if_pos h2]
    · rw [if_neg h2]
      push_neg at h2
      rw [h2, hend]
  · rw [if_neg h1]
    push_neg at h1
    subst h1
    have e0 := ha.unique hz
    subst e0
    simp only
    by_cases h2 : last ≠ s.nrow
    · rw [if_pos h2]
      simp
    · rw [if_neg h2]
      push_neg at h2
      rw [h2, hend]
      simp

/-- C14: on a store with the data-model invariants, for every column `c < ncol`, the
lower bound of row 0 in the run of `c` is `p[c]` and the lower bound of row `nrow` is
`p[c+1]`, so the sub-run `(iIt, eIt, xIt)` selected with the two skips is the one selected
by always searching for `first` and `last`; `get_col` scatters that searched run and
`get_const_col_nonzero` returns it. -/
theorem col_run_eq_search {α : Type} (s : Reader α) (h : WellFormed s) (c : Nat)
    (hc : c < s.ncol) :
    lower_bound s.i (rdAt s.p c) (rdAt s.p (c + 1)) ((0 : Nat) : Int) = rdAt s.p c ∧
    lower_bound s.i (rdAt s.p c) (rdAt s.p (c + 1)) (s.nrow : Int) = rdAt s.p (c + 1) ∧
    ∀ first last : Nat,
      col_run s c first last = col_run_search s c first last ∧
      get_col s c first last =
        (if check_colargs s c first last then
          get_col_loop s first (col_run_search s c first last).2.1
            ((col_run_search s c first last).2.1 - (col_run_search s c first last).1).toNat
            (col_run_search s c first last).1 (col_run_search s c first last).2.2
            (List.replicate (last - first) s.empty)
        else none) ∧
      get_const_col_nonzero s c first last =
        (if check_colargs s c first last then
          some (size_of_diff
              ((col_run_search s c first last).2.1 - (col_run_search s c first last).1),
            (col_run_search s c first last).1, (col_run_search s c first last).2.2)
        else none) := by
  refine ⟨lower_bound_eq _ _ _ _ _ (h.cursor_zero c hc),
    lower_bound_eq _ _ _ _ _ (h.cursor_nrow c hc), fun first last => ?_⟩
  have e := col_run_eq_col_run_search h hc first last
  refine ⟨e, ?_, ?_⟩
  · simp only [get_col]
    rw [e]
  · simp only [get_const_col_nonzero]
    rw [e]

/-- C14, at the store `p = [0,2,2,4]`, `i = [0,3,1,3]`, `x = [10,40,20,50]`, column 2:
the whole-column request `first = 0`, `last = nrow = 4` selects the run `[2, 4)`. -/
theorem col_run_eq_search_witness :
    WellFormed (⟨4, 3, [0,3,1,3], [0,2,2,4], [10,40,20,50], 0, ⟨0, 0, 0, []⟩⟩ : Reader Int) ∧
    col_run (⟨4, 3, [0,3,1,3], [0,2,2,4], [10,40,20,50], 0, ⟨0, 0, 0, []⟩⟩ : Reader Int) 2 0 4
      = col_run_search
        (⟨4, 3, [0,3,1,3], [0,2,2,4], [10,40,20,50], 0, ⟨0, 0, 0, []⟩⟩ : Reader Int) 2 0 4 ∧
    col_run_search
        (⟨4, 3, [0,3,1,3], [0,2,2,4], [10,40,20,50], 0, ⟨0, 0, 0, []⟩⟩ : Reader Int) 2 0 4
      = (2, 4, 2) :=
  ⟨by decide,
   ((col_run_eq_search
      (⟨4, 3, [0,3,1,3], [0,2,2,4], [10,40,20,50], 0, ⟨0, 0, 0, []⟩⟩ : Reader Int)
      (by decide) 2 (by decide)).2.2 0 4).1,
   by decide⟩

/-! ## The stores of `get_col` -/

theorem get_col_offsets_eq_map {α : Type} (s : Reader α) (first : Nat) (b : Int) :
    ∀ (fuel : Nat) (t : Int), t ≤ b → fuel = (b - t).toNat →
      get_col_offsets s first b fuel t =
        (List.range fuel).map (fun (j : Nat) => rdInt s.i (t + (j : Int)) - int_of_size first) := by
  intro fuel
  induction fuel with
  | zero =>
    intro t htb hf
    have e : t = b := by omega
    subst e
    simp [get_col_offsets]
  | succ fuel ih =>
    intro t htb hf
    have hne : t ≠ b := by omega
    rw [get_col_offsets, if_neg hne, ih (t + 1) (by omega) (by omega),
      List.range_succ_eq_map, List.map_cons, List.map_map]
    have e : ∀ j : Nat, t + ((j + 1 : Nat) : Int) = t + 1 + (j : Int) := by
      intro j; push_cast; ring
    simp only [Nat.cast_zero, add_zero, List.cons.injEq, true_and]
    apply List.map_congr_left
    intro j _
    simp only [Function.comp, Nat.succ_eq_add_one, e]

/-- The scatter loop of `get_col` stores exactly at the offsets `get_col_offsets` lists, in
that order: when it ends, its buffer is the starting buffer with one store per listed
offset. -/
theorem get_col_loop_stores {α : Type} (s : Reader α) (first : Nat) (eIt : Int) :
    ∀ (fuel : Nat) (iIt xIt : Int) (out out' : List α),
      get_col_loop s first eIt fuel iIt xIt out = some out' →
      ∃ vals : List α, vals.length = (get_col_offsets s first eIt fuel iIt).length ∧
        out' = ((get_col_offsets s first eIt fuel iIt).zip vals).foldl
          (fun (o : List α) (q : Int × α) => wrAt o q.1 q.2) out := by
  intro fuel
  induction fuel with
  | zero =>
    intro iIt xIt out out' hrun
    rw [get_col_loop] at hrun
    rw [get_col_offsets]
    by_cases e : iIt = eIt
    · rw [if_pos e] at hrun
      rw [if_pos e]
      exact ⟨[], rfl, by simpa using hrun.symm⟩
    · rw [if_neg e] at hrun
      simp at hrun
  | succ fuel ih =>
    intro iIt xIt out out' hrun
    rw [get_col_loop] at hrun
    rw [get_col_offsets]
    by_cases e : iIt = eIt
    · rw [if_pos e] at hrun
      rw [if_pos e]
      exact ⟨[], rfl, by simpa using hrun.symm⟩
    · rw [if_neg e] at hrun
      rw [if_neg e]
      obtain ⟨vals, h1, h2⟩ := ih _ _ _ _ hrun
      exact ⟨rdVal s.x s.empty xIt :: vals, by simp [h1], by simpa using h2⟩

/-- C17: on a store with the data-model invariants (its row indices being C `int`s), for
every column `c < ncol` and every `first <= last <= nrow`, the offsets at which
`get_col(c, out, first, last)` stores are `i[k] - first` for the offsets `k` of the selected
run, each of them is in `[0, last - first)`, and no two of them are equal. -/
theorem get_col_writes_in_buffer {α : Type} (s : Reader α) (h : WellFormed s)
    (hint : ∀ k, k < s.i.length → rdAt s.i k < 2 ^ 31) (c first last : Nat)
    (hc : c < s.ncol) (hfl : first ≤ last) (hl : last ≤ s.nrow) :
    (∀ o ∈ get_col_writes s c first last, 0 ≤ o ∧ o < ((last - first : Nat) : Int)) ∧
    (get_col_writes s c first last).Nodup ∧
    ∃ a b : Int, col_run s c first last = (a, b, a) ∧ a ≤ b ∧
      get_col_writes s c first last =
        (List.range (b - a).toNat).map (fun (j : Nat) => rdInt s.i (a + (j : Int)) - (first : Int)) := by
  have hchk : check_colargs s c first last = true := by
    simp [check_colargs, hc, hfl, hl]
  obtain ⟨a, b, hrun, ha, hb⟩ := col_run_spec h hc hfl
  have hab := ha.mono hb hfl
  have hp := h.p_nonneg c (by omega)
  have hn := h.p_le_nnz (c + 1) (by omega)
  obtain ⟨a1, a2, a3, a4⟩ := ha
  obtain ⟨b1, b2, b3, b4⟩ := hb
  have hw : get_col_writes s c first last =
      (List.range (b - a).toNat).map (fun (j : Nat) => rdInt s.i (a + (j : Int)) - (first : Int)) := by
    simp only [get_col_writes, hchk, if_true, hrun]
    rw [get_col_offsets_eq_map s first b _ a hab rfl]
    by_cases e : a = b
    · subst e
      simp
    · have g1 := a4 a (le_refl _) (by omega)
      have g2 := hint a.toNat (by omega)
      rw [← rdInt_eq_rdAt] at g2
      rw [int_of_size_eq first (by omega)]
  refine ⟨?_, ?_, a, b, hrun, hab, hw⟩
  · intro o ho
    rw [hw, List.mem_map] at ho
    obtain ⟨j, hj, rfl⟩ := ho
    rw [List.mem_range] at hj
    have g1 := a4 (a + (j : Int)) (by omega) (by omega)
    have g2 := b3 (a + (j : Int)) (by omega) (by omega)
    constructor
    · omega
    · push_cast [Nat.cast_sub hfl]
      omega
  · rw [hw]
    apply List.Nodup.map_on _ (List.nodup_range _)
    intro j hj j' hj' heq
    rw [List.mem_range] at hj hj'
    by_contra hne
    rcases Nat.lt_or_gt_of_ne hne with hlt | hgt
    · have := h.i_lt c hc (a + (j : Int)) (a + (j' : Int)) (by omega) (by omega) (by omega)
      omega
    · have := h.i_lt c hc (a + (j' : Int)) (a + (j : Int)) (by omega) (by omega) (by omega)
      omega

/-- C17, at the store `p = [0,2,2,4]`, `i = [0,3,1,3]`, `x = [10,40,20,50]`, column 2 and
rows `[1, 4)`: the stores go to the offsets 0 and 2. -/
theorem get_col_writes_in_buffer_witness :
    WellFormed (⟨4, 3, [0,3,1,3], [0,2,2,4], [10,40,20,50], 0, ⟨0, 0, 0, []⟩⟩ : Reader Int) ∧
    get_col_writes
      (⟨4, 3, [0,3,1,3], [0,2,2,4], [10,40,20,50], 0, ⟨0, 0, 0, []⟩⟩ : Reader Int) 2 1 4
      = [0, 2] ∧
    (get_col_writes
      (⟨4, 3, [0,3,1,3], [0,2,2,4], [10,40,20,50], 0, ⟨0, 0, 0, []⟩⟩ : Reader Int) 2 1 4).Nodup :=
  ⟨by decide, by decide,
   (get_col_writes_in_buffer
      (⟨4, 3, [0,3,1,3], [0,2,2,4], [10,40,20,50], 0, ⟨0, 0, 0, []⟩⟩ : Reader Int)
      (by decide) (by decide) 2 1 4 (by decide) (by decide) (by decide)).2.1⟩

/-! ## Reachable states -/

theorem update_indices_eq_move {α : Type} (s : Reader α) (r first last : Nat) :
    update_indices s r first last =
      if r = (window_cursor s first last).currow then window_cursor s first last
      else { window_cursor s first last with
        indices :=
          if r = (window_cursor s first last).currow + 1 then
            forRange first last (with_curdex (step_forward s r)) (window_cursor s first last).indices
          else if r + 1 = (window_cursor s first last).currow then
            forRange first last (with_curdex (step_backward s r)) (window_cursor s first last).indices
          else if r > (window_cursor s first last).currow then
            forRange first last (with_curdex (jump_forward s r)) (window_cursor s first last).indices
          else
            forRange first last (with_curdex (jump_backward s r)) (window_cursor s first last).indices,
        currow := r } := rfl

theorem window_cursor_spec {α : Type} {s : Reader α} (h : WellFormed s)
    (hcur : CursorOk s s.cur) (first last : Nat) (hl : last ≤ s.ncol) :
    (materialized s).length = s.ncol ∧
    (window_cursor s first last).curstart = first ∧
    (window_cursor s first last).curend = last ∧
    (window_cursor s first last).indices.length = s.ncol ∧
    ∀ c, first ≤ c → c < last →
      IsCursor s c (window_cursor s first last).currow
        ((window_cursor s first last).indices.getD c 0) := by
  have hlen0 : (materialized s).length = s.ncol := by
    unfold materialized
    split_ifs with e
    · rw [List.length_take, h.1]; omega
    · push_neg at e; exact e
  exact ⟨hlen0, update_indices_window h hcur first last hl (materialized s) rfl
    (window_cursor s first last) rfl⟩

theorem fresh_cursorOk {α : Type} (s : Reader α) (hrow : s.cur.currow = 0)
    (hind : s.cur.indices = []) : CursorOk s s.cur := by
  refine ⟨fun hlen c _ _ hc => ?_, fun _ => hrow⟩
  rw [hind] at hlen
  simp at hlen
  omega

/-- The reader a sequence of in-bounds calls of `get_row` leaves: the calls return, the
arrays and dimensions are those of the start, and the cursor is consistent. -/
theorem after_calls_spec {α : Type} (calls : List (Nat × Nat × Nat)) :
    ∀ (s : Reader α), WellFormed s → CursorOk s s.cur →
      (∀ q ∈ calls, q.1 < s.nrow ∧ q.2.1 ≤ q.2.2 ∧ q.2.2 ≤ s.ncol) →
      ∃ s1, after_calls s calls = some s1 ∧ WellFormed s1 ∧ CursorOk s1 s1.cur ∧
        s1.nrow = s.nrow ∧ s1.ncol = s.ncol ∧ s1.i = s.i ∧ s1.p = s.p ∧ s1.x = s.x ∧
        s1.empty = s.empty := by
  induction calls with
  | nil => intro s h hcur _; exact ⟨s, rfl, h, hcur, rfl, rfl, rfl, rfl, rfl, rfl⟩
  | cons q rest ih =>
    intro s h hcur hq
    obtain ⟨r, first, last⟩ := q
    obtain ⟨hr, hfl, hl⟩ := hq (r, first, last) (List.mem_cons_self _ _)
    simp only [after_calls, get_row_spec h hcur r first last hr hfl hl]
    exact ih { s with cur := update_indices s r first last } h
      (update_indices_ok h hcur r first last hl)
      (fun q' hq' => hq q' (List.mem_cons_of_mem _ hq'))

theorem indices_at_spec (f : Nat → Int → Int) (first c : Nat) (indices : List Int)
    (hc : c < indices.length) :
    (indices_at f first c indices).length = indices.length ∧
    curdex_at f first c indices = indices.getD c 0 := by
  obtain ⟨a, b⟩ := forRange_columns f first c indices
  refine ⟨a, ?_⟩
  unfold curdex_at indices_at
  rw [b c hc, if_neg (by omega)]

/-- C13: on a store with the data-model invariants, after every sequence of in-bounds
`get_row` calls started from the cursor the constructor leaves, `update_indices(r, first,
last)` leaves `currow = r`, `curstart = first`, `curend = last` and, for every column `c`
of `[first, last)`, `p[c] <= indices[c] <= p[c+1]`, `i[k] < r` at every offset `k` of
`[p[c], indices[c])` and `i[k] >= r` at every offset `k` of `[indices[c], p[c+1])`,
whichever of the four paths the call takes. -/
theorem cursor_invariant {α : Type} (s : Reader α) (h : WellFormed s)
    (hrow : s.cur.currow = 0) (hind : s.cur.indices = [])
    (calls : List (Nat × Nat × Nat))
    (hcalls : ∀ q ∈ calls, q.1 < s.nrow ∧ q.2.1 ≤ q.2.2 ∧ q.2.2 ≤ s.ncol)
    (r first last : Nat) (hq : r < s.nrow ∧ first ≤ last ∧ last ≤ s.ncol) :
    ∃ s1, after_calls s calls = some s1 ∧
      (update_indices s1 r first last).currow = r ∧
      (update_indices s1 r first last).curstart = first ∧
      (update_indices s1 r first last).curend = last ∧
      ∀ c, first ≤ c → c < last →
        rdAt s1.p c ≤ (update_indices s1 r first last).indices.getD c 0 ∧
        (update_indices s1 r first last).indices.getD c 0 ≤ rdAt s1.p (c + 1) ∧
        (∀ k : Int, rdAt s1.p c ≤ k → k < (update_indices s1 r first last).indices.getD c 0 →
          rdInt s1.i k < (r : Int)) ∧
        (∀ k : Int, (update_indices s1 r first last).indices.getD c 0 ≤ k →
          k < rdAt s1.p (c + 1) → (r : Int) ≤ rdInt s1.i k) := by
  obtain ⟨s1, e1, hw, hc1, -, hncol, -⟩ :=
    after_calls_spec calls s h (fresh_cursorOk s hrow hind) hcalls
  obtain ⟨a, b, c, -, e⟩ := update_indices_spec hw hc1 r first last (by rw [hncol]; exact hq.2.2)
  exact ⟨s1, e1, a, b, c, fun col h1 h2 => e col h1 h2⟩

/-- C13, at the store `p = [0,2,2,4]`, `i = [0,3,1,3]`, `x = [10,40,20,50]`, after the calls
`get_row(3, out, 0, 3)` (jump) and `get_row(1, out, 1, 3)` (window change), for
`update_indices(2, 1, 3)` (forward step). -/
theorem cursor_invariant_witness :
    WellFormed (⟨4, 3, [0,3,1,3], [0,2,2,4], [10,40,20,50], 0, ⟨0, 0, 0, []⟩⟩ : Reader Int) ∧
    ∃ s1, after_calls
        (⟨4, 3, [0,3,1,3], [0,2,2,4], [10,40,20,50], 0, ⟨0, 0, 0, []⟩⟩ : Reader Int)
        [(3, 0, 3), (1, 1, 3)] = some s1 ∧
      (update_indices s1 2 1 3).currow = 2 ∧
      (update_indices s1 2 1 3).curstart = 1 ∧
      (update_indices s1 2 1 3).curend = 3 :=
  ⟨by decide, by
    obtain ⟨s1, h1, h2, h3, h4, -⟩ := cursor_invariant
      (⟨4, 3, [0,3,1,3], [0,2,2,4], [10,40,20,50], 0, ⟨0, 0, 0, []⟩⟩ : Reader Int)
      (by decide) rfl rfl [(3, 0, 3), (1, 1, 3)] (by decide) 2 1 3 (by decide)
    exact ⟨s1, h1, h2, h3, h4⟩⟩

/-! ## Bounds of the reads of row access -/

theorem lower_bound_reads_mem (v : List Int) (val : Int) :
    ∀ (fuel : Nat) (first : Int) (len : Nat) (k : Int),
      k ∈ lower_bound_reads v val fuel first len → first ≤ k ∧ k < first + (len : Int) := by
  intro fuel
  induction fuel with
  | zero => intro first len k hk; simp [lower_bound_reads] at hk
  | succ fuel ih =>
    intro first len k hk
    simp only [lower_bound_reads] at hk
    split_ifs at hk with hpos hlt
    · rcases List.mem_cons.mp hk with e | hmem
      · subst e; constructor <;> omega
      · have := ih _ _ _ hmem
        constructor <;> omega
    · rcases List.mem_cons.mp hk with e | hmem
      · subst e; constructor <;> omega
      · have := ih _ _ _ hmem
        constructor <;> omega
    · simp at hk

theorem lower_bound_offsets_mem (v : List Int) (first last val k : Int)
    (hk : k ∈ lower_bound_offsets v first last val) : first ≤ k ∧ k < last := by
  have := lower_bound_reads_mem v val _ _ _ k hk
  constructor <;> omega

/-- C15: on a store with the data-model invariants, after every sequence of in-bounds
`get_row` calls started from the cursor the constructor leaves, an in-bounds call
`get_row(r, out, first, last)` indexes inside its vectors.  `indices` has `ncol` entries
from its materialization on, in every round of every column loop, and the columns of the
loops are below `ncol`.  In the forward step, when the test `curdex != p[c+1]` lets
`i[curdex]` be read, `p[c] <= curdex < p[c+1]`, and the step leaves `curdex <= p[c+1]`.  In
the backward step, when the test `curdex != p[c]` lets `i[curdex-1]` be read,
`p[c] < curdex <= p[c+1]`, and the step leaves `curdex >= p[c]`.  The searches of the two
jumps read `i` at offsets of `[0, nnz)`.  In the loop of `get_row`,
when the test `idex != p[c+1]` lets `i[idex]` and `x[idex]` be read,
`0 <= idex < p[c+1] <= nnz`. -/
theorem row_access_in_bounds {α : Type} (s : Reader α) (h : WellFormed s)
    (hrow : s.cur.currow = 0) (hind : s.cur.indices = [])
    (calls : List (Nat × Nat × Nat))
    (hcalls : ∀ q ∈ calls, q.1 < s.nrow ∧ q.2.1 ≤ q.2.2 ∧ q.2.2 ≤ s.ncol)
    (r first last : Nat) (hq : r < s.nrow ∧ first ≤ last ∧ last ≤ s.ncol) :
    ∃ s1, after_calls s calls = some s1 ∧
      (materialized s1).length = s1.ncol ∧
      (window_cursor s1 first last).indices.length = s1.ncol ∧
      (update_indices s1 r first last).indices.length = s1.ncol ∧
      ∀ c, first ≤ c → c < last →
        c < s1.ncol ∧ c + 1 < s1.p.length ∧
        (∀ f : Nat → Int → Int,
          (indices_at f first c (materialized s1)).length = s1.ncol ∧
          (indices_at f first c (window_cursor s1 first last).indices).length = s1.ncol) ∧
        (r = (window_cursor s1 first last).currow + 1 →
          (curdex_at (step_forward s1 r) first c (window_cursor s1 first last).indices
              ≠ rdAt s1.p (c + 1) →
            rdAt s1.p c ≤
              curdex_at (step_forward s1 r) first c (window_cursor s1 first last).indices ∧
            curdex_at (step_forward s1 r) first c (window_cursor s1 first last).indices
              < rdAt s1.p (c + 1) ∧
            0 ≤ curdex_at (step_forward s1 r) first c (window_cursor s1 first last).indices ∧
            curdex_at (step_forward s1 r) first c (window_cursor s1 first last).indices
              < (s1.i.length : Int)) ∧
          step_forward s1 r c
              (curdex_at (step_forward s1 r) first c (window_cursor s1 first last).indices)
            ≤ rdAt s1.p (c + 1)) ∧
        (r + 1 = (window_cursor s1 first last).currow →
          (curdex_at (step_backward s1 r) first c (window_cursor s1 first last).indices
              ≠ rdAt s1.p c →
            rdAt s1.p c <
              curdex_at (step_backward s1 r) first c (window_cursor s1 first last).indices ∧
            curdex_at (step_backward s1 r) first c (window_cursor s1 first last).indices
              ≤ rdAt s1.p (c + 1) ∧
            0 ≤ curdex_at (step_backward s1 r) first c (window_cursor s1 first last).indices
              - 1 ∧
            curdex_at (step_backward s1 r) first c (window_cursor s1 first last).indices - 1
              < (s1.i.length : Int)) ∧
          rdAt s1.p c ≤ step_backward s1 r c
              (curdex_at (step_backward s1 r) first c (window_cursor s1 first last).indices)) ∧
        (∀ k ∈ lower_bound_offsets s1.i
            (curdex_at (jump_forward s1 r) first c (window_cursor s1 first last).indices)
            (rdAt s1.p (c + 1)) (r : Int), 0 ≤ k ∧ k < (s1.i.length : Int)) ∧
        (∀ k ∈ lower_bound_offsets s1.i (rdAt s1.p c)
            (curdex_at (jump_backward s1 r) first c (window_cursor s1 first last).indices)
            (r : Int), 0 ≤ k ∧ k < (s1.i.length : Int)) ∧
        ((update_indices s1 r first last).indices.getD c 0 ≠ rdAt s1.p (c + 1) →
          0 ≤ (update_indices s1 r first last).indices.getD c 0 ∧
          (update_indices s1 r first last).indices.getD c 0 < rdAt s1.p (c + 1) ∧
          rdAt s1.p (c + 1) ≤ (s1.i.length : Int) ∧
          s1.x.length = s1.i.length) := by
  obtain ⟨s1, e1, hw, hc1, -, hncol, -⟩ :=
    after_calls_spec calls s h (fresh_cursorOk s hrow hind) hcalls
  have hl : last ≤ s1.ncol := by rw [hncol]; exact hq.2.2
  obtain ⟨m1, -, -, w3, w4⟩ := window_cursor_spec hw hc1 first last hl
  obtain ⟨-, -, -, u3, u4⟩ := update_indices_spec hw hc1 r first last hl
  refine ⟨s1, e1, m1, w3, u3, fun c hc1' hc2 => ?_⟩
  have hcn : c < s1.ncol := by omega
  have hp := hw.p_nonneg c (by omega)
  have hn := hw.p_le_nnz (c + 1) (by omega)
  have hcw := w4 c hc1' hc2
  obtain ⟨k1, k2, -, -⟩ := hcw
  refine ⟨hcn, by rw [hw.1]; omega, fun f => ⟨?_, ?_⟩, fun _ => ?_, fun _ => ?_,
    fun k hk => ?_, fun k hk => ?_, fun hne => ?_⟩
  · rw [(indices_at_spec f first c _ (by rw [m1]; exact hcn)).1, m1]
  · rw [(indices_at_spec f first c _ (by rw [w3]; exact hcn)).1, w3]
  · rw [(indices_at_spec (step_forward s1 r) first c _ (by rw [w3]; exact hcn)).2]
    refine ⟨fun hne => ⟨k1, lt_of_le_of_ne k2 hne, by omega, ?_⟩, ?_⟩
    · have := lt_of_le_of_ne k2 hne
      omega
    · unfold step_forward
      split_ifs with hif
      · have := lt_of_le_of_ne k2 hif.1
        omega
      · exact k2
  · rw [(indices_at_spec (step_backward s1 r) first c _ (by rw [w3]; exact hcn)).2]
    refine ⟨fun hne => ⟨lt_of_le_of_ne k1 (Ne.symm hne), k2, ?_, by omega⟩, ?_⟩
    · have := lt_of_le_of_ne k1 (Ne.symm hne)
      omega
    · unfold step_backward
      split_ifs with hif
      · have := lt_of_le_of_ne k1 (Ne.symm hif.1)
        omega
      · exact k1
  · rw [(indices_at_spec (jump_forward s1 r) first c _ (by rw [w3]; exact hcn)).2] at hk
    have := lower_bound_offsets_mem _ _ _ _ _ hk
    constructor <;> omega
  · rw [(indices_at_spec (jump_backward s1 r) first c _ (by rw [w3]; exact hcn)).2] at hk
    have := lower_bound_offsets_mem _ _ _ _ _ hk
    constructor <;> omega
  · obtain ⟨j1, j2, -, -⟩ := u4 c hc1' hc2
    exact ⟨by omega, lt_of_le_of_ne j2 hne, hn, hw.2.1⟩

/-- C15, at the store `p = [0,2,2,4]`, `i = [0,3,1,3]`, `x = [10,40,20,50]`, after the calls
`get_row(3, out, 0, 3)` and `get_row(1, out, 1, 3)`, for the call `get_row(2, out, 1, 3)`,
whose `update_indices` takes the forward step. -/
theorem row_access_in_bounds_witness :
    WellFormed (⟨4, 3, [0,3,1,3], [0,2,2,4], [10,40,20,50], 0, ⟨0, 0, 0, []⟩⟩ : Reader Int) ∧
    ∃ s1, after_calls
        (⟨4, 3, [0,3,1,3], [0,2,2,4], [10,40,20,50], 0, ⟨0, 0, 0, []⟩⟩ : Reader Int)
        [(3, 0, 3), (1, 1, 3)] = some s1 ∧
      (materialized s1).length = s1.ncol ∧
      (update_indices s1 2 1 3).indices.length = s1.ncol :=
  ⟨by decide, by
    obtain ⟨s1, h1, h2, -, h3, -⟩ := row_access_in_bounds
      (⟨4, 3, [0,3,1,3], [0,2,2,4], [10,40,20,50], 0, ⟨0, 0, 0, []⟩⟩ : Reader Int)
      (by decide) rfl rfl [(3, 0, 3), (1, 1, 3)] (by decide) 2 1 3 (by decide)
    exact ⟨s1, h1, h2, h3⟩⟩

/-! ## Failing calls and the frame of the read interface -/

theorem call_thrown_iff {α : Type} (s : Reader α) (op : Op) :
    (call s op).map Prod.fst = some (.thrown .IndexOutOfBounds) ↔
      match op with
      | .get r c => check_oneargs s r c = false
      | .get_row r first last => check_rowargs s r first last = false
      | .get_col c first last => check_colargs s c first last = false
      | .get_const_col_nonzero c first last => check_colargs s c first last = false := by
  cases op with
  | get r c =>
    simp only [call]
    cases check_oneargs s r c <;> simp
  | get_row r first last =>
    simp only [call]
    cases hchk : check_rowargs s r first last
    · simp
    · simp only [if_true, Option.map_map]
      simp only [get_row, hchk, if_true]
      simp
  | get_col c first last =>
    simp only [call]
    cases hchk : check_colargs s c first last
    · simp
    · simp only [if_true, Option.map_map]
      cases get_col s c first last <;> simp
  | get_const_col_nonzero c first last =>
    simp only [call]
    cases hchk : check_colargs s c first last
    · simp
    · simp only [if_true, Option.map_map]
      simp only [get_const_col_nonzero, hchk, if_true]
      simp

/-- C11: a call whose arguments violate the preconditions throws `IndexOutOfBounds` and
leaves the object, hence the cursor (`indices`, `currow`, `curstart`, `curend`), as it was:
`get_row` with `row >= nrow`, `last > ncol` or `first > last`; `get` with `row >= nrow` or
`col >= ncol`; `get_col` and `get_const_col_nonzero` with `col >= ncol`, `last > nrow` or
`first > last`.  Whether a call throws depends on the dimensions and the arguments only,
not on what `i`, `p`, `x` or the cursor hold. -/
theorem out_of_bounds_throws {α : Type} (s : Reader α) :
    (∀ r first last, s.nrow ≤ r ∨ s.ncol < last ∨ last < first →
      call s (.get_row r first last) = some (.thrown .IndexOutOfBounds, s) ∧
      get_row s r first last = none) ∧
    (∀ r c, s.nrow ≤ r ∨ s.ncol ≤ c →
      call s (.get r c) = some (.thrown .IndexOutOfBounds, s) ∧ get s r c = none) ∧
    (∀ c first last, s.ncol ≤ c ∨ s.nrow < last ∨ last < first →
      call s (.get_col c first last) = some (.thrown .IndexOutOfBounds, s) ∧
      get_col s c first last = none ∧
      call s (.get_const_col_nonzero c first last) = some (.thrown .IndexOutOfBounds, s) ∧
      get_const_col_nonzero s c first last = none) ∧
    (∀ (s' : Reader α) (op : Op), s'.nrow = s.nrow → s'.ncol = s.ncol →
      (call s op).map Prod.fst = some (.thrown .IndexOutOfBounds) →
      (call s' op).map Prod.fst = some (.thrown .IndexOutOfBounds)) := by
  refine ⟨fun r first last hbad => ?_, fun r c hbad => ?_, fun c first last hbad => ?_,
    fun s' op h1 h2 hthrow => ?_⟩
  · have hchk : check_rowargs s r first last = false := by
      simp only [check_rowargs, Bool.and_eq_false_iff, decide_eq_false_iff_not]
      omega
    simp [call, get_row, hchk]
  · have hchk : check_oneargs s r c = false := by
      simp only [check_oneargs, Bool.and_eq_false_iff, decide_eq_false_iff_not]
      omega
    simp [call, get, hchk]
  · have hchk : check_colargs s c first last = false := by
      simp only [check_colargs, Bool.and_eq_false_iff, decide_eq_false_iff_not]
      omega
    simp [call, get_col, get_const_col_nonzero, hchk]
  · rw [call_thrown_iff] at hthrow ⊢
    cases op with
    | get r c => simpa only [check_oneargs, h1, h2] using hthrow
    | get_row r first last => simpa only [check_rowargs, h1, h2] using hthrow
    | get_col c first last => simpa only [check_colargs, h1, h2] using hthrow
    | get_const_col_nonzero c first last => simpa only [check_colargs, h1, h2] using hthrow

/-- C11, at the store `p = [0,2,2,4]`, `i = [0,3,1,3]`, `x = [10,40,20,50]` with a
materialized cursor: `get_row(4, out, 0, 3)` has `row >= nrow`. -/
theorem out_of_bounds_throws_witness :
    call (⟨4, 3, [0,3,1,3], [0,2,2,4], [10,40,20,50], 0, ⟨3, 0, 3, [1, 2, 3]⟩⟩ : Reader Int)
      (.get_row 4 0 3)
      = some (.thrown .IndexOutOfBounds,
          ⟨4, 3, [0,3,1,3], [0,2,2,4], [10,40,20,50], 0, ⟨3, 0, 3, [1, 2, 3]⟩⟩) :=
  ((out_of_bounds_throws
    (⟨4, 3, [0,3,1,3], [0,2,2,4], [10,40,20,50], 0, ⟨3, 0, 3, [1, 2, 3]⟩⟩ : Reader Int)).1
      4 0 3 (Or.inl (by decide))).1

/-- C12: a read request that returns leaves `p`, `i`, `x`, `nrow`, `ncol` (and the empty
value) as they were; `get`, `get_col` and `get_const_col_nonzero` also leave the cursor as
it was, so only `get_row` changes the object, and it changes the cursor only. -/
theorem read_frame {α : Type} (s s' : Reader α) (op : Op) (reply : Reply α)
    (hcall : call s op = some (reply, s')) :
    s'.p = s.p ∧ s'.i = s.i ∧ s'.x = s.x ∧ s'.nrow = s.nrow ∧ s'.ncol = s.ncol ∧
    s'.empty = s.empty ∧
    ((∀ r first last, op ≠ .get_row r first last) → s'.cur = s.cur) := by
  cases op with
  | get r c =>
    simp only [call] at hcall
    split_ifs at hcall <;>
    · simp only [Option.some.injEq, Prod.mk.injEq] at hcall
      obtain ⟨-, rfl⟩ := hcall
      simp
  | get_row r first last =>
    simp only [call] at hcall
    split_ifs at hcall with hchk
    · simp only [get_row, hchk, if_true, Option.map_some', Option.some.injEq,
        Prod.mk.injEq] at hcall
      obtain ⟨-, rfl⟩ := hcall
      exact ⟨rfl, rfl, rfl, rfl, rfl, rfl, fun hne => absurd rfl (hne r first last)⟩
    · simp only [Option.some.injEq, Prod.mk.injEq] at hcall
      obtain ⟨-, rfl⟩ := hcall
      simp
  | get_col c first last =>
    simp only [call] at hcall
    split_ifs at hcall
    · cases hg : get_col s c first last with
      | none => rw [hg] at hcall; simp at hcall
      | some out =>
        rw [hg] at hcall
        simp only [Option.map_some', Option.some.injEq, Prod.mk.injEq] at hcall
        obtain ⟨-, rfl⟩ := hcall
        simp
    · simp only [Option.some.injEq, Prod.mk.injEq] at hcall
      obtain ⟨-, rfl⟩ := hcall
      simp
  | get_const_col_nonzero c first last =>
    simp only [call] at hcall
    split_ifs at hcall
    · cases hg : get_const_col_nonzero s c first last with
      | none => rw [hg] at hcall; simp at hcall
      | some q =>
        rw [hg] at hcall
        simp only [Option.map_some', Option.some.injEq, Prod.mk.injEq] at hcall
        obtain ⟨-, rfl⟩ := hcall
        simp
    · simp only [Option.some.injEq, Prod.mk.injEq] at hcall
      obtain ⟨-, rfl⟩ := hcall
      simp

/-- C12, at the store `p = [0,2,2,4]`, `i = [0,3,1,3]`, `x = [10,40,20,50]` and the call
`get_row(3, out, 0, 3)`, which moves the cursor and leaves the arrays. -/
theorem read_frame_witness :
    call (⟨4, 3, [0,3,1,3], [0,2,2,4], [10,40,20,50], 0, ⟨0, 0, 0, []⟩⟩ : Reader Int)
      (.get_row 3 0 3)
      = some (.buffer [40, 0, 50],
          ⟨4, 3, [0,3,1,3], [0,2,2,4], [10,40,20,50], 0, ⟨3, 0, 3, [1, 2, 3]⟩⟩) ∧
    (⟨4, 3, [0,3,1,3], [0,2,2,4], [10,40,20,50], 0, ⟨3, 0, 3, [1, 2, 3]⟩⟩ : Reader Int).p
      = [0,2,2,4] :=
  ⟨by decide,
   (read_frame
    (⟨4, 3, [0,3,1,3], [0,2,2,4], [10,40,20,50], 0, ⟨0, 0, 0, []⟩⟩ : Reader Int)
    ⟨4, 3, [0,3,1,3], [0,2,2,4], [10,40,20,50], 0, ⟨3, 0, 3, [1, 2, 3]⟩⟩
    (.get_row 3 0 3) (.buffer [40, 0, 50]) (by decide)).1⟩

end Beachmat
